import Mathlib

/-!
Verification of the presolve / propagation core of a CP-SAT style solver
(files `ortools/sat/cp_model_presolve.cc` and `ortools/sat/integer.cc`).

The development shallowly embeds, in Lean:
  * variable references and literals (signed integer indices, bitwise-not
    negation);
  * the presolve context (per-variable domains, modified-variable set,
    sticky unsat flag) and its operations `IntersectDomainWith`,
    `SetLiteralToFalse`, `AddBooleanEqualityRelation`;
  * the constraint rewriters `PresolveBoolOr`, `PresolveLinearOnBooleans`
    and `PresolveCumulative`;
  * the fixpoint driver `PresolveToFixPoint` and the unsat finalization of
    `PresolveCpModel`;
  * the integer trail (`AddIntegerVariable`, `Enqueue`,
    `UpdateInitialDomain`, `Untrail`) with its canonicalization of bounds
    against multi-interval domains;
  * the dispatcher loop `GenericLiteralWatcher::Propagate`.

Domains: the presolve side uses the value-set semantics of the repository's
`Domain` class (a finite set of int64 values); the integer-trail side uses
the sorted-interval-list representation because `IntegerTrail::Enqueue`
inspects the interval structure directly.
-/

/-! ### Variable references (cp_model_utils)

A reference is a signed index; the bitwise negation `~r = -r - 1` names the
negated variable / literal. -/

/-- Negation of a reference: `NegatedRef(r) = ~r = -r - 1`. -/
def NegatedRef (r : Int) : Int := -r - 1

/-- `RefIsPositive(r)`: `r ≥ 0`. -/
def RefIsPositive (r : Int) : Bool := 0 ≤ r

/-- `PositiveRef(r)`: the nonnegative index of the underlying variable. -/
def PositiveRef (r : Int) : Int := if 0 ≤ r then r else -r - 1

/-- The underlying variable of a reference, as a natural number index. -/
def pvar (r : Int) : Nat := (PositiveRef r).toNat

theorem NegatedRef_involutive (r : Int) : NegatedRef (NegatedRef r) = r := by
  simp [NegatedRef]

/-! ### Presolve-side domains

Modelled from the spec: the repository's `Domain` class
(`util/sorted_interval_list.h`, not under `src/`) is an ordered sequence of
disjoint integer intervals with total value-set semantics; here we use the
value set itself, a `Finset ℤ`.  `IsIncludedIn` is set inclusion,
`IntersectionWith` is intersection, `Negation` is pointwise negation,
`IsEmpty` is emptiness, `Min`/`Max` are the extremal elements. -/

/-- Presolve-side domain: the value set of a `Domain`. -/
abbrev PDomain := Finset ℤ

/-- Modelled from the spec: `Domain::Negation()`, pointwise negation. -/
def pdNegation (d : PDomain) : PDomain := d.image (fun x => -x)

/-- Modelled from the spec: `Domain::Min()` (0 on the empty domain, which the
code never queries thanks to its `CHECK`s). -/
def pdMin (d : PDomain) : ℤ := if h : d.Nonempty then d.min' h else 0

/-- Modelled from the spec: `Domain::Max()`. -/
def pdMax (d : PDomain) : ℤ := if h : d.Nonempty then d.max' h else 0

theorem mem_pdNegation {d : PDomain} {x : ℤ} : x ∈ pdNegation d ↔ -x ∈ d := by
  constructor
  · intro h
    rcases Finset.mem_image.1 h with ⟨y, hy, rfl⟩
    simpa using hy
  · intro h
    exact Finset.mem_image.2 ⟨-x, h, by simp⟩

theorem pdNegation_pdNegation (d : PDomain) : pdNegation (pdNegation d) = d := by
  ext x
  simp [mem_pdNegation]

theorem subset_pdNegation_iff {a b : PDomain} :
    a ⊆ pdNegation b ↔ pdNegation a ⊆ b := by
  constructor
  · intro h x hx
    have := h (mem_pdNegation.1 hx)
    simpa using mem_pdNegation.1 this
  · intro h x hx
    exact mem_pdNegation.2 (h (mem_pdNegation.2 (by simpa using hx)))

theorem pdNegation_inter (a b : PDomain) :
    pdNegation a ∩ b = ∅ ↔ a ∩ pdNegation b = ∅ := by
  constructor
  · intro h
    ext x
    simp only [Finset.mem_inter, Finset.not_mem_empty, iff_false, not_and]
    intro hxa hxb
    have : -x ∈ pdNegation a ∩ b := by
      exact Finset.mem_inter.2 ⟨mem_pdNegation.2 (by simpa using hxa),
        mem_pdNegation.1 hxb⟩
    simp [h] at this
  · intro h
    ext x
    simp only [Finset.mem_inter, Finset.not_mem_empty, iff_false, not_and]
    intro hxa hxb
    have : -x ∈ a ∩ pdNegation b := by
      exact Finset.mem_inter.2 ⟨mem_pdNegation.1 hxa,
        mem_pdNegation.2 (by simpa using hxb)⟩
    simp [h] at this

/-! ### The presolve context (struct `PresolveContext`) -/

/-- The presolve context: per-variable domains, the modified-variable
bitset, the sticky unsat flag, the per-variable constraint-usage counts,
and the enumerate-all-solutions option. -/
structure PCtx where
  domains : List PDomain
  modified : Finset Nat
  isUnsat : Bool
  varNumConstraints : List Nat
  enumerateAll : Bool

/-- `PresolveContext::DomainIsEmpty(ref)`. -/
def DomainIsEmpty (ctx : PCtx) (ref : Int) : Bool :=
  ctx.domains.getD (pvar ref) ∅ = ∅

/-- `PresolveContext::DomainOf(ref)`: the domain seen through the sign of
the reference. -/
def DomainOf (ctx : PCtx) (ref : Int) : PDomain :=
  if RefIsPositive ref then ctx.domains.getD (pvar ref) ∅
  else pdNegation (ctx.domains.getD (pvar ref) ∅)

/-- `PresolveContext::IsFixed(ref)` : `Min == Max` of the variable domain. -/
def IsFixed (ctx : PCtx) (ref : Int) : Bool :=
  pdMin (ctx.domains.getD (pvar ref) ∅) = pdMax (ctx.domains.getD (pvar ref) ∅)

/-- `PresolveContext::MinOf(ref)`. -/
def MinOf (ctx : PCtx) (ref : Int) : ℤ :=
  if RefIsPositive ref then pdMin (ctx.domains.getD (pvar ref) ∅)
  else -pdMax (ctx.domains.getD (pvar ref) ∅)

/-- `PresolveContext::MaxOf(ref)`. -/
def MaxOf (ctx : PCtx) (ref : Int) : ℤ :=
  if RefIsPositive ref then pdMax (ctx.domains.getD (pvar ref) ∅)
  else -pdMin (ctx.domains.getD (pvar ref) ∅)

/-- `PresolveContext::LiteralIsTrue(lit)`. -/
def LiteralIsTrue (ctx : PCtx) (lit : Int) : Bool :=
  if ¬ IsFixed ctx lit then false
  else if RefIsPositive lit then pdMin (ctx.domains.getD (pvar lit) ∅) = 1
  else pdMax (ctx.domains.getD (pvar lit) ∅) = 0

/-- `PresolveContext::LiteralIsFalse(lit)`. -/
def LiteralIsFalse (ctx : PCtx) (lit : Int) : Bool :=
  if ¬ IsFixed ctx lit then false
  else if RefIsPositive lit then pdMax (ctx.domains.getD (pvar lit) ∅) = 0
  else pdMin (ctx.domains.getD (pvar lit) ∅) = 1

/-- `PresolveContext::VariableIsUniqueAndRemovable(ref)`. -/
def VariableIsUniqueAndRemovable (ctx : PCtx) (ref : Int) : Bool :=
  ctx.varNumConstraints.getD (pvar ref) 0 = 1 && !ctx.enumerateAll

/-- `PresolveContext::IntersectDomainWith(ref, domain)` — returns whether the
domain changed, updates the domain to the intersection, marks the variable
in `modified_domains` and raises the unsat flag on an empty result. -/
def IntersectDomainWith (ctx : PCtx) (ref : Int) (domain : PDomain) :
    Bool × PCtx :=
  let var := pvar ref
  let cur := ctx.domains.getD var ∅
  let tgt := if RefIsPositive ref then domain else pdNegation domain
  if cur ⊆ tgt then (false, ctx)
  else
    let newDom := cur ∩ tgt
    (true,
      { ctx with
        domains := ctx.domains.set var newDom
        modified := insert var ctx.modified
        isUnsat := ctx.isUnsat || decide (newDom = ∅) })

/-- `PresolveContext::SetLiteralToFalse(lit)`. -/
def SetLiteralToFalse (ctx : PCtx) (lit : Int) : PCtx :=
  let var : Int := PositiveRef lit
  let value : ℤ := if RefIsPositive lit then 0 else 1
  if IsFixed ctx var then
    if value ≠ MinOf ctx var then { ctx with isUnsat := true } else ctx
  else (IntersectDomainWith ctx var {value}).2

/-- `PresolveContext::SetLiteralToTrue(lit)`. -/
def SetLiteralToTrue (ctx : PCtx) (lit : Int) : PCtx :=
  SetLiteralToFalse ctx (NegatedRef lit)

/-- `PresolveContext::AddBooleanEqualityRelation(ref_a, ref_b)`.  The two
early special cases are from the source; `tail` stands for the remaining
body (the `AffineRelation::TryAdd` calls, the added two-term linear
constraint and the usage update, source lines 244-284, whose repository
implementation is outside `src/`), over which our theorems quantify. -/
def AddBooleanEqualityRelation (tail : PCtx → Int → Int → PCtx)
    (ctx : PCtx) (refA refB : Int) : PCtx :=
  if refA = refB then ctx
  else if refA = NegatedRef refB then { ctx with isUnsat := true }
  else tail ctx refA refB

/-! ### Claim C3: `IntersectDomainWith` -/

theorem getD_of_nonempty {ctx : PCtx} {v : Nat}
    (h : (ctx.domains.getD v ∅).Nonempty) : v < ctx.domains.length := by
  by_contra hv
  rw [List.getD_eq_default _ _ (Nat.le_of_not_lt hv)] at h
  exact Finset.not_nonempty_empty h

theorem pdNegation_inter_eq (a b : PDomain) :
    pdNegation (a ∩ b) = pdNegation a ∩ pdNegation b := by
  ext x
  simp [mem_pdNegation]

/-- The inclusion check of `IntersectDomainWith` is equivalent, through the
reference sign, to inclusion of `DomainOf ref` in `d`. -/
theorem IDW_subset_iff (ctx : PCtx) (ref : Int) (d : PDomain) :
    (ctx.domains.getD (pvar ref) ∅ ⊆
        (if RefIsPositive ref then d else pdNegation d)) ↔
      DomainOf ctx ref ⊆ d := by
  by_cases hpos : RefIsPositive ref
  · simp [hpos, DomainOf]
  · simp only [hpos, if_false, Bool.false_eq_true, DomainOf]
    exact subset_pdNegation_iff

/-- The emptiness check of `IntersectDomainWith` matches emptiness of
`DomainOf ref ∩ d`. -/
theorem IDW_empty_iff (ctx : PCtx) (ref : Int) (d : PDomain) :
    (ctx.domains.getD (pvar ref) ∅ ∩
        (if RefIsPositive ref then d else pdNegation d) = ∅) ↔
      DomainOf ctx ref ∩ d = ∅ := by
  by_cases hpos : RefIsPositive ref
  · simp [hpos, DomainOf]
  · simp only [hpos, if_false, Bool.false_eq_true, DomainOf]
    exact (pdNegation_inter _ d).symm

theorem IDW_of_subset {ctx : PCtx} {ref : Int} {d : PDomain}
    (h : DomainOf ctx ref ⊆ d) :
    IntersectDomainWith ctx ref d = (false, ctx) := by
  have h' := (IDW_subset_iff ctx ref d).2 h
  unfold IntersectDomainWith
  simp only [h', if_true]

theorem IDW_of_not_subset {ctx : PCtx} {ref : Int} {d : PDomain}
    (h : ¬ DomainOf ctx ref ⊆ d) :
    IntersectDomainWith ctx ref d =
      (true,
        { ctx with
          domains := ctx.domains.set (pvar ref)
            (ctx.domains.getD (pvar ref) ∅ ∩
              (if RefIsPositive ref then d else pdNegation d))
          modified := insert (pvar ref) ctx.modified
          isUnsat := ctx.isUnsat ||
            decide (ctx.domains.getD (pvar ref) ∅ ∩
              (if RefIsPositive ref then d else pdNegation d) = ∅) }) := by
  have h' : ¬ (ctx.domains.getD (pvar ref) ∅ ⊆
      (if RefIsPositive ref then d else pdNegation d)) :=
    fun hc => h ((IDW_subset_iff ctx ref d).1 hc)
  unfold IntersectDomainWith
  simp only [h', if_false]

/-- After a shrinking call, `DomainOf` of the result is the intersection
`DomainOf ctx ref ∩ d`. -/
theorem IDW_domain_after {ctx : PCtx} {ref : Int} {d : PDomain}
    (h : ¬ DomainOf ctx ref ⊆ d) (hlt : pvar ref < ctx.domains.length) :
    DomainOf (IntersectDomainWith ctx ref d).2 ref = DomainOf ctx ref ∩ d := by
  rw [IDW_of_not_subset h]
  have hget : ∀ x : PDomain,
      ((ctx.domains.set (pvar ref) x).getD (pvar ref) ∅) = x := by
    intro x
    rw [List.getD_eq_getElem?_getD, List.getElem?_set_self (by exact hlt)]
    simp
  by_cases hpos : RefIsPositive ref
  · simp only [DomainOf, hpos, if_true]
    exact hget _
  · simp only [DomainOf, hpos, if_false, Bool.false_eq_true]
    rw [hget _, pdNegation_inter_eq, pdNegation_pdNegation]

/-- Claim C3: for every reference with a non-empty current domain and every
domain `d`, `IntersectDomainWith(ref, d)` returns `true` iff the variable's
domain strictly shrank (equivalently, it returns `false` exactly when the
current domain is already included in `d`); when it returns `true` it marks
the variable in `modified_domains`; and the unsat flag of the result holds
exactly when the old flag was set or the intersection is empty. -/
theorem c3_intersect_domain_with (ctx : PCtx) (ref : Int) (d : PDomain)
    (hne : (ctx.domains.getD (pvar ref) ∅).Nonempty) :
    let res := IntersectDomainWith ctx ref d
    (res.1 = true ↔ ¬ DomainOf ctx ref ⊆ d) ∧
    (res.1 = true ↔ DomainOf res.2 ref ⊂ DomainOf ctx ref) ∧
    (res.1 = true → pvar ref ∈ res.2.modified) ∧
    (res.2.isUnsat = true ↔ ctx.isUnsat = true ∨ DomainOf ctx ref ∩ d = ∅) := by
  intro res
  have hlt : pvar ref < ctx.domains.length := getD_of_nonempty hne
  have hdneref : (DomainOf ctx ref).Nonempty := by
    by_cases hpos : RefIsPositive ref
    · simpa [DomainOf, hpos] using hne
    · simp only [DomainOf, hpos, if_false, Bool.false_eq_true]
      rcases hne with ⟨x, hx⟩
      exact ⟨-x, mem_pdNegation.2 (by simpa using hx)⟩
  by_cases h : DomainOf ctx ref ⊆ d
  · have hres : res = (false, ctx) := IDW_of_subset h
    rw [hres]
    have hnonempty : ¬ (DomainOf ctx ref ∩ d = ∅) := by
      rw [Finset.inter_eq_left.2 h]
      intro hc
      rw [hc] at hdneref
      exact Finset.not_nonempty_empty hdneref
    refine ⟨by simp [h], ?_, by simp, by simp [hnonempty]⟩
    constructor
    · intro hc
      simp at hc
    · intro hc
      exact absurd rfl (Finset.ssubset_iff_subset_ne.1 hc).2
  · have hfst : res.1 = true := by
      show (IntersectDomainWith ctx ref d).1 = true
      rw [IDW_of_not_subset h]
    have hdom : DomainOf res.2 ref = DomainOf ctx ref ∩ d := IDW_domain_after h hlt
    refine ⟨by simp [hfst, h], ?_, ?_, ?_⟩
    · rw [hdom]
      simp only [hfst, true_iff]
      exact Finset.ssubset_iff_subset_ne.2
        ⟨Finset.inter_subset_left, fun hc => h (Finset.inter_eq_left.1 hc)⟩
    · intro _
      rw [show res = _ from IDW_of_not_subset h]
      exact Finset.mem_insert_self _ _
    · rw [show res = _ from IDW_of_not_subset h]
      simp only [Bool.or_eq_true, decide_eq_true_eq]
      rw [IDW_empty_iff]

/-- Witness for C3 at a concrete input: variable 0 with domain `{0, 1, 2}`
intersected with `{1, 2}`. -/
theorem c3_intersect_domain_with_witness :
    let ctx : PCtx :=
      { domains := [({0, 1, 2} : Finset ℤ)], modified := ∅, isUnsat := false,
        varNumConstraints := [2], enumerateAll := false }
    let res := IntersectDomainWith ctx 0 ({1, 2} : Finset ℤ)
    (res.1 = true ↔ ¬ DomainOf ctx 0 ⊆ ({1, 2} : Finset ℤ)) ∧
    (res.1 = true ↔ DomainOf res.2 0 ⊂ DomainOf ctx 0) ∧
    (res.1 = true → pvar 0 ∈ res.2.modified) ∧
    (res.2.isUnsat = true ↔ ctx.isUnsat = true ∨
      DomainOf ctx 0 ∩ ({1, 2} : Finset ℤ) = ∅) :=
  c3_intersect_domain_with _ 0 _ (by decide)

/-! ### Claim C10: `AddBooleanEqualityRelation` early cases -/

/-- Claim C10: `AddBooleanEqualityRelation(ref_a, ref_b)` with equal
references is a no-op (the context is returned unchanged, whatever the rest
of the body would do), and with `ref_a` the negation of `ref_b` it sets the
unsat flag and changes nothing else. -/
theorem c10_add_boolean_equality_relation (tail : PCtx → Int → Int → PCtx)
    (ctx : PCtx) (refA refB : Int) :
    (refA = refB → AddBooleanEqualityRelation tail ctx refA refB = ctx) ∧
    (refA = NegatedRef refB →
      AddBooleanEqualityRelation tail ctx refA refB =
        { ctx with isUnsat := true }) := by
  constructor
  · intro h
    simp [AddBooleanEqualityRelation, h]
  · intro h
    subst h
    have hne : NegatedRef refB ≠ refB := by
      simp only [NegatedRef]
      omega
    simp [AddBooleanEqualityRelation, hne]

/-- Witness for C10 at concrete references 3 / 3 and -3 / 2
(`NegatedRef 2 = -3`). -/
theorem c10_add_boolean_equality_relation_witness :
    let ctx : PCtx :=
      { domains := [({0, 1} : Finset ℤ)], modified := ∅, isUnsat := false,
        varNumConstraints := [1], enumerateAll := false }
    AddBooleanEqualityRelation (fun c _ _ => c) ctx 3 3 = ctx ∧
    AddBooleanEqualityRelation (fun c _ _ => c) ctx (-3) 2 =
      { ctx with isUnsat := true } :=
  ⟨(c10_add_boolean_equality_relation _ _ 3 3).1 rfl,
   (c10_add_boolean_equality_relation _ _ (-3) 2).2 (by decide)⟩

/-! ### Reference arithmetic helpers -/

theorem pvar_NegatedRef (r : Int) : pvar (NegatedRef r) = pvar r := by
  simp only [pvar, NegatedRef, PositiveRef]
  split_ifs <;> omega

theorem RefIsPositive_NegatedRef (r : Int) :
    RefIsPositive (NegatedRef r) = !RefIsPositive r := by
  by_cases h : (0:Int) ≤ r
  · have h2 : ¬ (0 ≤ -r - 1) := by omega
    simp [RefIsPositive, NegatedRef, h, h2]
  · have h2 : (0:Int) ≤ -r - 1 := by omega
    simp [RefIsPositive, NegatedRef, h, h2]

theorem RefIsPositive_PositiveRef (r : Int) :
    RefIsPositive (PositiveRef r) = true := by
  simp only [RefIsPositive, PositiveRef]
  split_ifs with h
  · simpa using h
  · simp only [decide_eq_true_eq]
    omega

theorem pvar_PositiveRef (r : Int) : pvar (PositiveRef r) = pvar r := by
  simp only [pvar, PositiveRef]
  split_ifs <;> omega

theorem getD_set_self {α : Type _} (l : List α) (i : Nat) (x d : α)
    (h : i < l.length) : (l.set i x).getD i d = x := by
  rw [List.getD_eq_getElem?_getD, List.getElem?_set_self (by exact h)]
  simp

theorem getD_set_ne {α : Type _} (l : List α) {i j : Nat} (x d : α)
    (h : i ≠ j) : (l.set i x).getD j d = l.getD j d := by
  rw [List.getD_eq_getElem?_getD, List.getElem?_set_ne (by exact h),
    ← List.getD_eq_getElem?_getD]

/-! ### Constraints (tagged union `ConstraintProto`) -/

/-- The constraint cases the verified rewriters need.  `notSet` is the
cleared state (`ConstraintProto::Clear`). -/
inductive CKind where
  | notSet
  | boolOr (lits : List Int)
  | boolAnd (lits : List Int)
  | atMostOne (lits : List Int)
  | interval (startRef sizeRef endRef : Int)
  | noOverlap (intervals : List Nat)
  | allDiff (vars : List Int)
  | cumulative (intervals : List Nat) (demands : List Int) (capacity : Int)
  deriving DecidableEq

/-- A constraint: enforcement literals plus the kind-specific payload. -/
structure Ct where
  enf : List Int
  kind : CKind
  deriving DecidableEq

/-- `RemoveConstraint` / `ConstraintProto::Clear()`. -/
def clearedCt : Ct := ⟨[], CKind.notSet⟩

/-! ### `PresolveBoolOr` -/

/-- The literal-inspection loop of `PresolveBoolOr` (source lines 425-445):
fixed-false literals are dropped, a fixed-true or unique-removable literal
satisfies the clause (`none`, with the context updated by the singleton
rule), the others are kept in order. -/
def boolOrLoop (ctx : PCtx) : List Int → PCtx × Option (List Int)
  | [] => (ctx, some [])
  | l :: rest =>
    if LiteralIsFalse ctx l then boolOrLoop ctx rest
    else if LiteralIsTrue ctx l then (ctx, none)
    else if VariableIsUniqueAndRemovable ctx l then (SetLiteralToTrue ctx l, none)
    else
      match boolOrLoop ctx rest with
      | (c, some tl) => (c, some (l :: tl))
      | r => r

/-- `PresolveBoolOr` (source lines 409-474): enforcement literals are first
moved, negated, into the clause; after the literal loop, the empty clause
raises unsat, a unit clause fixes its literal and removes the constraint,
and a binary clause is turned into the half-reified
`bool_and` `¬tmp[0] ⇒ tmp[1]`. -/
def PresolveBoolOr (ctx : PCtx) (ct : Ct) : PCtx × Ct :=
  match ct with
  | ⟨enfL, CKind.boolOr lits⟩ =>
    match boolOrLoop ctx (lits ++ enfL.map NegatedRef) with
    | (c, none) => (c, clearedCt)
    | (c, some []) =>
      ({ c with isUnsat := true },
        ⟨[], CKind.boolOr (lits ++ enfL.map NegatedRef)⟩)
    | (c, some [a]) => (SetLiteralToTrue c a, clearedCt)
    | (c, some [a, b]) => (c, ⟨[NegatedRef a], CKind.boolAnd [b]⟩)
    | (c, some tmp) => (c, ⟨[], CKind.boolOr tmp⟩)
  | _ => (ctx, ct)

theorem boolOrLoop_removed (ctx : PCtx) (L : List Int)
    (h : ∃ l ∈ L, LiteralIsFalse ctx l = false ∧
      (LiteralIsTrue ctx l = true ∨ VariableIsUniqueAndRemovable ctx l = true)) :
    (boolOrLoop ctx L).2 = none := by
  induction L with
  | nil => simp at h
  | cons x rest ih =>
    rcases h with ⟨l, hl, hlf, hlt⟩
    rcases List.mem_cons.1 hl with rfl | hmem
    · simp only [boolOrLoop, hlf, Bool.false_eq_true, if_false]
      rcases hlt with hlt | hlt
      · simp [hlt]
      · by_cases ht : LiteralIsTrue ctx l = true
        · simp [ht]
        · simp [ht, hlt]
    · by_cases hxf : LiteralIsFalse ctx x = true
      · simp only [boolOrLoop, hxf, if_true]
        exact ih ⟨l, hmem, hlf, hlt⟩
      · by_cases hxt : LiteralIsTrue ctx x = true
        · simp [boolOrLoop, hxf, hxt]
        · by_cases hxr : VariableIsUniqueAndRemovable ctx x = true
          · simp [boolOrLoop, hxf, hxt, hxr]
          · have hrest := ih ⟨l, hmem, hlf, hlt⟩
            simp only [boolOrLoop, hxf, Bool.false_eq_true, if_false, hxt,
              hxr]
            rcases hr : boolOrLoop ctx rest with ⟨c, tl⟩
            rw [hr] at hrest
            cases tl with
            | none => simp
            | some tl => simp at hrest

theorem boolOrLoop_clean (ctx : PCtx) (L : List Int)
    (h : ∀ l ∈ L, LiteralIsFalse ctx l = false →
      LiteralIsTrue ctx l = false ∧ VariableIsUniqueAndRemovable ctx l = false) :
    boolOrLoop ctx L = (ctx, some (L.filter (fun l => !LiteralIsFalse ctx l))) := by
  induction L with
  | nil => simp [boolOrLoop]
  | cons x rest ih =>
    have hrest := ih (fun l hl => h l (List.mem_cons_of_mem _ hl))
    by_cases hxf : LiteralIsFalse ctx x = true
    · simp [boolOrLoop, hxf, hrest, List.filter]
    · have hx := h x (List.mem_cons_self _ _) (by simpa using hxf)
      simp [boolOrLoop, hxf, hx.1, hx.2, hrest, List.filter]

theorem subset_pair_cases (d : PDomain) (h : d ⊆ {0, 1}) :
    d = ∅ ∨ d = {0} ∨ d = {1} ∨ d = {0, 1} := by
  by_cases h0 : (0:ℤ) ∈ d <;> by_cases h1 : (1:ℤ) ∈ d
  · right; right; right
    apply Finset.Subset.antisymm h
    intro x hx
    rcases Finset.mem_insert.1 hx with rfl | hx
    · exact h0
    · rw [Finset.mem_singleton.1 hx]
      exact h1
  · right; left
    ext x
    simp only [Finset.mem_singleton]
    constructor
    · intro hx
      rcases Finset.mem_insert.1 (h hx) with rfl | hm
      · rfl
      · rw [Finset.mem_singleton.1 hm] at hx
        exact absurd hx h1
    · intro hx
      rw [hx]
      exact h0
  · right; right; left
    ext x
    simp only [Finset.mem_singleton]
    constructor
    · intro hx
      rcases Finset.mem_insert.1 (h hx) with rfl | hm
      · exact absurd hx h0
      · exact Finset.mem_singleton.1 hm
    · intro hx
      rw [hx]
      exact h1
  · left
    ext x
    simp only [Finset.not_mem_empty, iff_false]
    intro hx
    rcases Finset.mem_insert.1 (h hx) with rfl | hm
    · exact absurd hx h0
    · rw [Finset.mem_singleton.1 hm] at hx
      exact absurd hx h1

theorem LiteralIsFalse_eval (ctx : PCtx) (a : Int) (D : PDomain)
    (hd : ctx.domains.getD (pvar a) ∅ = D) :
    LiteralIsFalse ctx a =
      if pdMin D = pdMax D then
        (if RefIsPositive a then decide (pdMax D = 0) else decide (pdMin D = 1))
      else false := by
  unfold LiteralIsFalse IsFixed
  rw [hd]
  by_cases h : pdMin D = pdMax D <;> by_cases hpos : RefIsPositive a <;>
    simp [h, hpos]

theorem LiteralIsTrue_eval (ctx : PCtx) (a : Int) (D : PDomain)
    (hd : ctx.domains.getD (pvar a) ∅ = D) :
    LiteralIsTrue ctx a =
      if pdMin D = pdMax D then
        (if RefIsPositive a then decide (pdMin D = 1) else decide (pdMax D = 0))
      else false := by
  unfold LiteralIsTrue IsFixed
  rw [hd]
  by_cases h : pdMin D = pdMax D <;> by_cases hpos : RefIsPositive a <;>
    simp [h, hpos]

/-- A literal whose boolean variable is neither fixed false nor fixed true
has the full domain `{0, 1}`. -/
theorem free_literal_domain (ctx : PCtx) (a : Int)
    (hsub : ctx.domains.getD (pvar a) ∅ ⊆ {0, 1})
    (hne : (ctx.domains.getD (pvar a) ∅).Nonempty)
    (hf : LiteralIsFalse ctx a = false) (ht : LiteralIsTrue ctx a = false) :
    ctx.domains.getD (pvar a) ∅ = {0, 1} := by
  rcases subset_pair_cases _ hsub with hd | hd | hd | hd
  · rw [hd] at hne
    exact absurd hne Finset.not_nonempty_empty
  · exfalso
    rw [LiteralIsFalse_eval ctx a _ hd] at hf
    rw [LiteralIsTrue_eval ctx a _ hd] at ht
    by_cases hpos : RefIsPositive a = true
    · rw [hpos] at hf
      exact absurd hf (by decide)
    · rw [Bool.eq_false_iff.2 hpos] at ht
      exact absurd ht (by decide)
  · exfalso
    rw [LiteralIsFalse_eval ctx a _ hd] at hf
    rw [LiteralIsTrue_eval ctx a _ hd] at ht
    by_cases hpos : RefIsPositive a = true
    · rw [hpos] at ht
      exact absurd ht (by decide)
    · rw [Bool.eq_false_iff.2 hpos] at hf
      exact absurd hf (by decide)
  · exact hd

/-- Setting a free boolean literal to true indeed makes it fixed true. -/
theorem LiteralIsTrue_SetLiteralToTrue (ctx : PCtx) (a : Int)
    (hdom : ctx.domains.getD (pvar a) ∅ = {0, 1})
    (hlt : pvar a < ctx.domains.length) :
    LiteralIsTrue (SetLiteralToTrue ctx a) a = true := by
  have hpv : pvar (PositiveRef (NegatedRef a)) = pvar a := by
    rw [pvar_PositiveRef, pvar_NegatedRef]
  have hnotFixed : IsFixed ctx (PositiveRef (NegatedRef a)) = false := by
    unfold IsFixed
    rw [hpv, hdom]
    decide
  rw [SetLiteralToTrue, SetLiteralToFalse]
  simp only [hnotFixed, Bool.false_eq_true, if_false]
  by_cases hpos : RefIsPositive a = true
  · have hnp : RefIsPositive (NegatedRef a) = false := by
      rw [RefIsPositive_NegatedRef, hpos]
      rfl
    simp only [hnp, Bool.false_eq_true, if_false]
    have hns : ¬ DomainOf ctx (PositiveRef (NegatedRef a)) ⊆ ({1} : Finset ℤ) := by
      unfold DomainOf
      rw [RefIsPositive_PositiveRef, if_pos rfl, hpv, hdom]
      decide
    rw [IDW_of_not_subset hns]
    rw [LiteralIsTrue_eval _ a (({0, 1} : Finset ℤ) ∩ {1}) ?hget]
    case hget =>
      show ((ctx.domains.set (pvar (PositiveRef (NegatedRef a))) _).getD
        (pvar a) ∅) = _
      simp only [hpv, RefIsPositive_PositiveRef, hdom, if_true]
      exact getD_set_self _ _ _ _ hlt
    rw [hpos]
    decide
  · have hnp : RefIsPositive (NegatedRef a) = true := by
      rw [RefIsPositive_NegatedRef, Bool.eq_false_iff.2 hpos]
      rfl
    simp only [hnp, if_true]
    have hns : ¬ DomainOf ctx (PositiveRef (NegatedRef a)) ⊆ ({0} : Finset ℤ) := by
      unfold DomainOf
      rw [RefIsPositive_PositiveRef, if_pos rfl, hpv, hdom]
      decide
    rw [IDW_of_not_subset hns]
    rw [LiteralIsTrue_eval _ a (({0, 1} : Finset ℤ) ∩ {0}) ?hget2]
    case hget2 =>
      show ((ctx.domains.set (pvar (PositiveRef (NegatedRef a))) _).getD
        (pvar a) ∅) = _
      simp only [hpv, RefIsPositive_PositiveRef, hdom, if_true]
      exact getD_set_self _ _ _ _ hlt
    rw [Bool.eq_false_iff.2 hpos]
    decide

theorem PresolveBoolOr_boolOr (ctx : PCtx) (enf lits : List Int) :
    PresolveBoolOr ctx ⟨enf, CKind.boolOr lits⟩ =
      match boolOrLoop ctx (lits ++ enf.map NegatedRef) with
      | (c, none) => (c, clearedCt)
      | (c, some []) =>
        ({ c with isUnsat := true },
          ⟨[], CKind.boolOr (lits ++ enf.map NegatedRef)⟩)
      | (c, some [a]) => (SetLiteralToTrue c a, clearedCt)
      | (c, some [a, b]) => (c, ⟨[NegatedRef a], CKind.boolAnd [b]⟩)
      | (c, some tmp) => (c, ⟨[], CKind.boolOr tmp⟩) := rfl

/-- Claim C6: `PresolveBoolOr` first pulls enforcement literals, negated,
into the clause; it drops fixed-false literals and removes the constraint
whenever a (non-false) literal is fixed true or is a unique removable
literal; otherwise, with `F` the fixed-false-filtered literal list: `F = []`
sets the unsat flag, `F = [a]` fixes `a` to true and removes the
constraint, and `F = [a, b]` rewrites the constraint into a `bool_and` with
enforcement literal `¬a` and body `b`. -/
theorem c6_presolve_bool_or (ctx : PCtx) (enf lits : List Int)
    (hBool : ∀ l ∈ lits ++ enf.map NegatedRef,
      (ctx.domains.getD (pvar l) ∅).Nonempty ∧
      ctx.domains.getD (pvar l) ∅ ⊆ {0, 1}) :
    let L := lits ++ enf.map NegatedRef
    let F := L.filter (fun l => !LiteralIsFalse ctx l)
    let res := PresolveBoolOr ctx ⟨enf, CKind.boolOr lits⟩
    ((∃ l ∈ L, LiteralIsFalse ctx l = false ∧
        (LiteralIsTrue ctx l = true ∨ VariableIsUniqueAndRemovable ctx l = true)) →
      res.2 = clearedCt) ∧
    ((∀ l ∈ L, LiteralIsFalse ctx l = false →
        LiteralIsTrue ctx l = false ∧ VariableIsUniqueAndRemovable ctx l = false) →
      (F = [] → res.1.isUnsat = true) ∧
      (∀ a, F = [a] → res.2 = clearedCt ∧ LiteralIsTrue res.1 a = true) ∧
      (∀ a b, F = [a, b] → res.1 = ctx ∧
        res.2 = ⟨[NegatedRef a], CKind.boolAnd [b]⟩)) := by
  intro L F res
  constructor
  · intro h
    have h2 := boolOrLoop_removed ctx L h
    show (PresolveBoolOr ctx ⟨enf, CKind.boolOr lits⟩).2 = clearedCt
    rw [PresolveBoolOr_boolOr]
    rcases hr : boolOrLoop ctx (lits ++ enf.map NegatedRef) with ⟨c, tl⟩
    rw [show (lits ++ enf.map NegatedRef) = L from rfl] at hr
    rw [hr] at h2
    cases tl with
    | none => rfl
    | some tl => simp at h2
  · intro hclean
    have hr : boolOrLoop ctx L = (ctx, some F) := boolOrLoop_clean ctx L hclean
    have key : PresolveBoolOr ctx ⟨enf, CKind.boolOr lits⟩ =
        match (ctx, some F) with
        | (c, none) => (c, clearedCt)
        | (c, some []) => ({ c with isUnsat := true }, ⟨[], CKind.boolOr L⟩)
        | (c, some [a]) => (SetLiteralToTrue c a, clearedCt)
        | (c, some [a, b]) => (c, ⟨[NegatedRef a], CKind.boolAnd [b]⟩)
        | (c, some tmp) => (c, ⟨[], CKind.boolOr tmp⟩) := by
      rw [PresolveBoolOr_boolOr]
      rw [show (lits ++ enf.map NegatedRef) = L from rfl, hr]
    refine ⟨?_, ?_, ?_⟩
    · intro hF
      show (PresolveBoolOr ctx ⟨enf, CKind.boolOr lits⟩).1.isUnsat = true
      rw [key, hF]
    · intro a hF
      have haF : a ∈ F := by
        rw [hF]
        exact List.mem_singleton.2 rfl
      have haL : a ∈ L ∧ (!LiteralIsFalse ctx a) = true := List.mem_filter.1 haF
      have hafalse : LiteralIsFalse ctx a = false := by
        simpa using haL.2
      have hatrue : LiteralIsTrue ctx a = false := (hclean a haL.1 hafalse).1
      have hBa := hBool a haL.1
      have hdom : ctx.domains.getD (pvar a) ∅ = {0, 1} :=
        free_literal_domain ctx a hBa.2 hBa.1 hafalse hatrue
      have hlt : pvar a < ctx.domains.length := getD_of_nonempty hBa.1
      constructor
      · show (PresolveBoolOr ctx ⟨enf, CKind.boolOr lits⟩).2 = clearedCt
        rw [key, hF]
      · show LiteralIsTrue (PresolveBoolOr ctx ⟨enf, CKind.boolOr lits⟩).1 a = true
        rw [key, hF]
        exact LiteralIsTrue_SetLiteralToTrue ctx a hdom hlt
    · intro a b hF
      constructor
      · show (PresolveBoolOr ctx ⟨enf, CKind.boolOr lits⟩).1 = ctx
        rw [key, hF]
      · show (PresolveBoolOr ctx ⟨enf, CKind.boolOr lits⟩).2 =
          ⟨[NegatedRef a], CKind.boolAnd [b]⟩
        rw [key, hF]

/-- Witness for C6: a binary clause over two free boolean variables becomes
the implication `¬x0 ⇒ x1`. -/
theorem c6_presolve_bool_or_witness :
    let ctx : PCtx :=
      { domains := [({0, 1} : Finset ℤ), ({0, 1} : Finset ℤ)], modified := ∅,
        isUnsat := false, varNumConstraints := [2, 2], enumerateAll := false }
    let L := [(0:Int), 1] ++ ([] : List Int).map NegatedRef
    let F := L.filter (fun l => !LiteralIsFalse ctx l)
    let res := PresolveBoolOr ctx ⟨[], CKind.boolOr [0, 1]⟩
    ((∃ l ∈ L, LiteralIsFalse ctx l = false ∧
        (LiteralIsTrue ctx l = true ∨ VariableIsUniqueAndRemovable ctx l = true)) →
      res.2 = clearedCt) ∧
    ((∀ l ∈ L, LiteralIsFalse ctx l = false →
        LiteralIsTrue ctx l = false ∧ VariableIsUniqueAndRemovable ctx l = false) →
      (F = [] → res.1.isUnsat = true) ∧
      (∀ a, F = [a] → res.2 = clearedCt ∧ LiteralIsTrue res.1 a = true) ∧
      (∀ a b, F = [a, b] → res.1 = ctx ∧
        res.2 = ⟨[NegatedRef a], CKind.boolAnd [b]⟩)) :=
  c6_presolve_bool_or _ [] [0, 1] (by decide)

/-! ### Working model and the fixpoint driver -/

/-- The working / presolved model: variable domains and constraints. -/
structure WModel where
  vars : List PDomain
  constraints : List Ct
  deriving DecidableEq

/-- The canonical UNSAT output model (source lines 2811-2813): cleared
model, one `bool_or` with no literals. -/
def emptyClauseModel : WModel := ⟨[], [⟨[], CKind.boolOr []⟩]⟩

/-- The driver state of `PresolveToFixPoint`: the constraint queue, the
in-queue bitmap, and the context's unsat flag. -/
structure DrvState where
  queue : List Nat
  inQueue : List Bool
  isUnsat : Bool
  deriving DecidableEq

/-- The inner queue loop of `PresolveToFixPoint` (source lines 2548-2572):
while the queue is non-empty and unsat is not set, pop the front
constraint, clear its in-queue bit and process it with `step` (standing for
`PresolveOneConstraint` plus the new-constraint and usage bookkeeping,
which may also append to the queue and set the unsat flag).  The returned
list records the popped constraint indices. -/
def PresolveToFixPointInner (step : Nat → DrvState → DrvState) :
    Nat → DrvState → DrvState × List Nat
  | 0, s => (s, [])
  | fuel + 1, s =>
    match s.queue with
    | [] => (s, [])
    | c :: rest =>
      if s.isUnsat then (s, [])
      else
        let s1 := step c { s with queue := rest, inQueue := s.inQueue.set c false }
        let r := PresolveToFixPointInner step fuel s1
        (r.1, c :: r.2)

/-- The outer loop of `PresolveToFixPoint` (source lines 2535-2617): both
loop heads test `!queue.empty() && !is_unsat`; after the inner loop the
re-queue phase (`requeue`, standing for the singleton-variable and
modified-domain re-activation, lines 2574-2616) runs, and the outer loop
re-checks. -/
def PresolveToFixPoint (step : Nat → DrvState → DrvState)
    (requeue : DrvState → DrvState) :
    Nat → DrvState → DrvState × List Nat
  | 0, s => (s, [])
  | fuel + 1, s =>
    if s.isUnsat then (s, [])
    else if s.queue = [] then (s, [])
    else
      let r1 := PresolveToFixPointInner step (fuel + 1) s
      let s2 := requeue r1.1
      let r2 := PresolveToFixPoint step requeue fuel s2
      (r2.1, r1.2 ++ r2.2)

/-- The unsat finalization of `PresolveCpModel` (source lines 2810-2815):
when the context is unsat, the presolved model is replaced by the canonical
empty-clause model; otherwise the remaining pipeline (`rest`) runs. -/
def PresolveCpModelFinalize (rest : WModel → WModel) (isUnsat : Bool)
    (m : WModel) : WModel :=
  if isUnsat then emptyClauseModel else rest m

/-- Claim C2: once the unsat flag is set, the fixpoint driver pops no
further constraint (it exits at its next queue check, leaving the state
untouched), and the presolve finalization replaces the working model by the
canonical empty-clause model: no variables and a single `bool_or`
constraint with no literals. -/
theorem c2_unsat_short_circuits (step : Nat → DrvState → DrvState)
    (requeue : DrvState → DrvState) (fuel : Nat) (s : DrvState)
    (rest : WModel → WModel) (m : WModel) (h : s.isUnsat = true) :
    PresolveToFixPoint step requeue fuel s = (s, []) ∧
    PresolveToFixPointInner step fuel s = (s, []) ∧
    PresolveCpModelFinalize rest s.isUnsat m = emptyClauseModel ∧
    emptyClauseModel.vars = [] ∧
    emptyClauseModel.constraints = [⟨[], CKind.boolOr []⟩] := by
  refine ⟨?_, ?_, by simp [PresolveCpModelFinalize, h], rfl, rfl⟩
  · cases fuel with
    | zero => rfl
    | succ n => simp [PresolveToFixPoint, h]
  · cases fuel with
    | zero => rfl
    | succ n =>
      unfold PresolveToFixPointInner
      cases hq : s.queue with
      | nil => rfl
      | cons c rest' => simp [h]

/-- Witness for C2 at a concrete unsat driver state. -/
theorem c2_unsat_short_circuits_witness :
    let s : DrvState := { queue := [0, 1], inQueue := [true, true], isUnsat := true }
    PresolveToFixPoint (fun _ t => t) id 5 s = (s, []) ∧
    PresolveToFixPointInner (fun _ t => t) 5 s = (s, []) ∧
    PresolveCpModelFinalize id s.isUnsat ⟨[{0}], [⟨[], CKind.boolOr [0]⟩]⟩ =
      emptyClauseModel ∧
    emptyClauseModel.vars = [] ∧
    emptyClauseModel.constraints = [⟨[], CKind.boolOr []⟩] :=
  c2_unsat_short_circuits _ _ 5 _ _ _ rfl

/-! ### `PresolveLinearOnBooleans` (C1)

The RHS domain of a linear constraint is kept here in its sorted-interval
representation, because the rewriter inspects `domain.front().end` and
`domain.back().start` against the int64 sentinels. -/

/-- `kint64min` as an integer. -/
def kint64min : Int := -(2 ^ 63)

/-- `kint64max` as an integer. -/
def kint64max : Int := 2 ^ 63 - 1

/-- Modelled from the spec: a `Domain` in sorted-interval representation
(used for the linear constraint RHS). -/
abbrev RhsDomain := List (Int × Int)

/-- `Domain::Min()` on the interval representation. -/
def rdMin (d : RhsDomain) : Int := (d.headD (0, 0)).1

/-- `Domain::Max()` on the interval representation. -/
def rdMax (d : RhsDomain) : Int := (d.getLastD (0, 0)).2

/-- `domain.front().end`. -/
def rdFrontEnd (d : RhsDomain) : Int := (d.headD (0, 0)).2

/-- `domain.back().start`. -/
def rdBackStart (d : RhsDomain) : Int := (d.getLastD (0, 0)).1

/-- `Domain::Contains(x)`. -/
def rdContains (d : RhsDomain) (x : Int) : Bool :=
  d.any (fun p => p.1 ≤ x && x ≤ p.2)

/-- The per-coefficient statistics of `PresolveLinearOnBooleans` (source
lines 1247-1270).  Faithful to the source: `min_coeff` starts at
`kint64max` and both `min_coeff` and `max_coeff` are updated with
`std::min` (`max_coeff` starts at 0). -/
structure BoolLinStats where
  minCoeff : Int
  maxCoeff : Int
  minSum : Int
  maxSum : Int
  deriving DecidableEq

/-- The coefficient scan of `PresolveLinearOnBooleans`. -/
def boolLinScan : List Int → BoolLinStats → BoolLinStats
  | [], st => st
  | c :: rest, st =>
    if c > 0 then
      boolLinScan rest
        ⟨min st.minCoeff c, min st.maxCoeff c, st.minSum, st.maxSum + c⟩
    else
      boolLinScan rest
        ⟨min st.minCoeff (-c), min st.maxCoeff (-c), st.minSum + c, st.maxSum⟩

/-- The rewrite chosen by `PresolveLinearOnBooleans`. -/
inductive BoolLinOutcome where
  | negativeReifiedAnd (lits : List Int)
  | positiveReifiedAnd (lits : List Int)
  | positiveClause (lits : List Int)
  | negativeClause (lits : List Int)
  | positiveAtMostOne (lits : List Int)
  | negativeAtMostOne (lits : List Int)
  | smallExpansion
  | noRewrite
  deriving DecidableEq

/-- Literal list `coeff > 0 ? var : ¬var`. -/
def posLits (vars coeffs : List Int) : List Int :=
  List.zipWith (fun v c => if c > 0 then v else NegatedRef v) vars coeffs

/-- Literal list `coeff > 0 ? ¬var : var`. -/
def negLits (vars coeffs : List Int) : List Int :=
  List.zipWith (fun v c => if c > 0 then NegatedRef v else v) vars coeffs

/-- `PresolveLinearOnBooleans` (source lines 1241-1378).  `isAffine` is the
`affine_constraints` membership test; `varMin`/`varMax` are the context's
`MinOf`/`MaxOf` on the (positive) variable references; the branch cascade
over the scanned statistics is the source's, including the
`std::min`-computed `max_coeff`. -/
def PresolveLinearOnBooleans (isAffine : Bool) (varMin varMax : Int → Int)
    (vars coeffs : List Int) (dom : RhsDomain) (hasEnf : Bool) :
    BoolLinOutcome :=
  if isAffine then .noRewrite
  else if ¬ (vars.all (fun v => varMin v = 0) &&
      vars.all (fun v => varMax v = 1)) then .noRewrite
  else
    let st := boolLinScan coeffs ⟨kint64max, 0, 0, 0⟩
    if st.minSum + st.minCoeff > rdMax dom then
      .negativeReifiedAnd (negLits vars coeffs)
    else if st.maxSum - st.minCoeff < rdMin dom then
      .positiveReifiedAnd (posLits vars coeffs)
    else if st.minSum + st.minCoeff ≥ rdMin dom ∧ rdFrontEnd dom = kint64max then
      .positiveClause (posLits vars coeffs)
    else if st.maxSum - st.minCoeff ≤ rdMax dom ∧ rdBackStart dom = kint64min then
      .negativeClause (negLits vars coeffs)
    else if ¬ hasEnf ∧ st.minSum + st.maxCoeff ≤ rdMax dom ∧
        st.minSum + 2 * st.minCoeff > rdMax dom ∧
        rdBackStart dom = kint64min then
      .positiveAtMostOne (posLits vars coeffs)
    else if ¬ hasEnf ∧ st.maxSum - st.maxCoeff ≥ rdMin dom ∧
        st.maxSum - 2 * st.minCoeff < rdMin dom ∧
        rdFrontEnd dom = kint64max then
      .negativeAtMostOne (negLits vars coeffs)
    else if vars.length > 3 then .noRewrite
    else .smallExpansion

/-- Truth of a literal reference under a boolean assignment to the
(nonnegative) variables. -/
def litHolds (a : Nat → Bool) (l : Int) : Bool :=
  if 0 ≤ l then a l.toNat else ! a (pvar l)

/-- Satisfaction of an at-most-one constraint. -/
def AtMostOneSat (a : Nat → Bool) (lits : List Int) : Bool :=
  (lits.filter (litHolds a)).length ≤ 1

/-- Satisfaction of a linear constraint over boolean variables (positive
references): the coefficient-weighted sum of the assignment must lie in
the RHS domain. -/
def LinearBoolSat (a : Nat → Bool) (vars coeffs : List Int)
    (dom : RhsDomain) : Bool :=
  rdContains dom
    ((List.zipWith (fun v c => if a (pvar v) then c else (0:Int)) vars coeffs).sum)

/-- Claim C1 (code bug): on the boolean linear constraint
`2·x0 + 5·x1 ∈ (kint64min, 2]` the rewriter takes the positive at-most-one
branch and emits `AtMostOne(x0, x1)`, yet the assignment `x0 = 0, x1 = 1`
satisfies that at-most-one while violating the original constraint
(`5 ∉ (-∞, 2]`), so the rewrite does not preserve the feasible set.  The
guard `min_sum + max_coeff ≤ domain.Max()` cannot reject it because
`max_coeff` is accumulated with `std::min` from 0 (lines 1248, 1263, 1268)
and is therefore always 0. -/
theorem c1_amo_rewrite_unsound :
    PresolveLinearOnBooleans false (fun _ => 0) (fun _ => 1) [0, 1] [2, 5]
        [(kint64min, 2)] false = BoolLinOutcome.positiveAtMostOne [0, 1] ∧
    AtMostOneSat (fun n => n == 1) [0, 1] = true ∧
    LinearBoolSat (fun n => n == 1) [0, 1] [2, 5] [(kint64min, 2)] = false := by
  refine ⟨?_, by decide, by decide⟩
  decide

/-! ### `PresolveCumulative` (C7) -/

/-- The payload start reference of an interval constraint (0 on other
kinds, mirroring reading an unset proto field). -/
def intervalStart (c : Ct) : Int :=
  match c.kind with
  | CKind.interval s _ _ => s
  | _ => 0

/-- The payload size (duration) reference of an interval constraint. -/
def intervalSize (c : Ct) : Int :=
  match c.kind with
  | CKind.interval _ z _ => z
  | _ => 0

/-- The interval constraint referenced by a cumulative entry. -/
def cumIntervalCt (m : WModel) (i : Nat) : Ct := m.constraints.getD i clearedCt

/-- `IsFixed(duration) && MinOf(duration) == 1` for one cumulative entry. -/
def cumDurOne (ctx : PCtx) (m : WModel) (p : Nat × Int) : Bool :=
  IsFixed ctx (intervalSize (cumIntervalCt m p.1)) &&
    decide (MinOf ctx (intervalSize (cumIntervalCt m p.1)) = 1)

/-- Whether a referenced interval is optional (has enforcement literals). -/
def cumOptional (m : WModel) (p : Nat × Int) : Bool :=
  decide ((cumIntervalCt m p.1).enf ≠ [])

/-- The start reference of a cumulative entry. -/
def cumStart (m : WModel) (p : Nat × Int) : Int :=
  intervalStart (cumIntervalCt m p.1)

/-- Result of the per-interval loop of `PresolveCumulative` (source lines
1694-1738): either an early `return false` (`abort`, with the possibly
updated context), or completion with the accumulated start references and
counters. -/
inductive CumScanRes where
  | abort (ctx : PCtx) (ret : Bool)
  | done (ctx : PCtx) (starts : List Int) (num1 numHalf : Nat) (hasOpt : Bool)

/-- The per-interval loop of `PresolveCumulative`. -/
def cumScan (m : WModel) (capacity : Int) :
    PCtx → List (Nat × Int) → List Int → Nat → Nat → Bool → CumScanRes
  | ctx, [], starts, num1, numHalf, hasOpt =>
    .done ctx starts num1 numHalf hasOpt
  | ctx, (i, dref) :: rest, starts, num1, numHalf, hasOpt =>
    let ictr := cumIntervalCt m i
    let hasOpt1 := hasOpt || cumOptional m (i, dref)
    let starts1 := starts ++ [intervalStart ictr]
    let num1a := if cumDurOne ctx m (i, dref) then num1 + 1 else num1
    if MinOf ctx (intervalSize ictr) = 0 then .abort ctx false
    else
      let dmin := MinOf ctx dref
      let dmax := MaxOf ctx dref
      let numHalf1 := if dmin > capacity / 2 then numHalf + 1 else numHalf
      if dmin > capacity then
        if ictr.enf = [] then .abort { ctx with isUnsat := true } false
        else .abort (SetLiteralToFalse ctx (ictr.enf.headD 0)) false
      else if dmax > capacity then
        if ictr.enf = [] then
          cumScan m capacity
            ((IntersectDomainWith ctx dref (Finset.Icc kint64min capacity)).2)
            rest starts1 num1a numHalf1 hasOpt1
        else .abort ctx false
      else cumScan m capacity ctx rest starts1 num1a numHalf1 hasOpt1

/-- The body of `PresolveCumulative` on a cumulative payload (source lines
1661-1761): filter cleared intervals, bail out on enforcement literals or
non-fixed capacity, scan the intervals, and on full scan convert to
`all_diff` (all durations one and no optional interval) or `no_overlap`
when every minimum demand exceeds half the capacity. -/
def PresolveCumulativeArgs (ctx : PCtx) (m : WModel) (enfL : List Int)
    (ints : List Nat) (dems : List Int) (cap : Int) :
    PCtx × WModel × Ct × Bool :=
  let kept := (ints.zip dems).filter
    (fun p => (m.constraints.getD p.1 clearedCt).kind ≠ CKind.notSet)
  let ct1 : Ct :=
    ⟨enfL, CKind.cumulative (kept.map Prod.fst) (kept.map Prod.snd) cap⟩
  if enfL ≠ [] then (ctx, m, ct1, false)
  else if ¬ IsFixed ctx cap then (ctx, m, ct1, false)
  else
    match cumScan m (MinOf ctx cap) ctx kept [] 0 0 false with
    | CumScanRes.abort c r => (c, m, ct1, r)
    | CumScanRes.done c starts num1 numHalf hasOpt =>
      if numHalf = kept.length then
        if num1 = kept.length ∧ ¬ hasOpt then
          (c, { m with constraints :=
              m.constraints ++ [⟨[], CKind.allDiff starts⟩] },
            clearedCt, true)
        else
          (c, { m with constraints :=
              m.constraints ++ [⟨[], CKind.noOverlap (kept.map Prod.fst)⟩] },
            clearedCt, true)
      else (c, m, ct1, decide (kept.length < ints.length))

/-- `PresolveCumulative`, dispatching on the constraint kind. -/
def PresolveCumulative (ctx : PCtx) (m : WModel) (ct : Ct) :
    PCtx × WModel × Ct × Bool :=
  match ct with
  | ⟨enfL, CKind.cumulative ints dems cap⟩ =>
    PresolveCumulativeArgs ctx m enfL ints dems cap
  | _ => (ctx, m, ct, false)

theorem MinOf_le_MaxOf (ctx : PCtx) (r : Int)
    (h : (ctx.domains.getD (pvar r) ∅).Nonempty) : MinOf ctx r ≤ MaxOf ctx r := by
  have hmm : pdMin (ctx.domains.getD (pvar r) ∅) ≤
      pdMax (ctx.domains.getD (pvar r) ∅) := by
    unfold pdMin pdMax
    rw [dif_pos h, dif_pos h]
    exact Finset.min'_le _ _ (Finset.max'_mem _ h)
  unfold MinOf MaxOf
  by_cases hpos : RefIsPositive r
  · simpa [hpos] using hmm
  · simp only [hpos, Bool.false_eq_true, if_false]
    omega

/-- When no early return fires, the cumulative scan completes, leaving the
context untouched and accumulating the start references, counters and the
optional-interval flag. -/
theorem cumScan_done (m : WModel) (capacity : Int) (ctx : PCtx)
    (l : List (Nat × Int)) (starts : List Int) (num1 numHalf : Nat)
    (hasOpt : Bool)
    (hdur : ∀ p ∈ l, MinOf ctx (intervalSize (cumIntervalCt m p.1)) ≠ 0)
    (hne : ∀ p ∈ l, (ctx.domains.getD (pvar p.2) ∅).Nonempty)
    (hhalf : ∀ p ∈ l, MinOf ctx p.2 > capacity / 2)
    (hmax : ∀ p ∈ l, MaxOf ctx p.2 ≤ capacity) :
    cumScan m capacity ctx l starts num1 numHalf hasOpt =
      CumScanRes.done ctx (starts ++ l.map (cumStart m))
        (num1 + (l.filter (cumDurOne ctx m)).length)
        (numHalf + l.length)
        (hasOpt || l.any (cumOptional m)) := by
  induction l generalizing starts num1 numHalf hasOpt with
  | nil => simp [cumScan]
  | cons p rest ih =>
    rcases p with ⟨i, dref⟩
    have hd : MinOf ctx (intervalSize (cumIntervalCt m i)) ≠ 0 := by
      simpa using hdur ⟨i, dref⟩ (List.mem_cons_self _ _)
    have hh : MinOf ctx dref > capacity / 2 := by
      simpa using hhalf ⟨i, dref⟩ (List.mem_cons_self _ _)
    have hm : MaxOf ctx dref ≤ capacity := by
      simpa using hmax ⟨i, dref⟩ (List.mem_cons_self _ _)
    have hmm := MinOf_le_MaxOf ctx dref (hne ⟨i, dref⟩ (List.mem_cons_self _ _))
    have hnotover : ¬ MinOf ctx dref > capacity := by omega
    have hnotmax : ¬ MaxOf ctx dref > capacity := by omega
    show (if MinOf ctx (intervalSize (cumIntervalCt m i)) = 0 then _ else _) = _
    rw [if_neg hd]
    rw [if_neg hnotover, if_neg hnotmax, if_pos hh]
    rw [ih (starts ++ [intervalStart (cumIntervalCt m i)])
        (if cumDurOne ctx m (i, dref) then num1 + 1 else num1)
        (numHalf + 1) (hasOpt || cumOptional m (i, dref))
        (fun q hq => hdur q (List.mem_cons_of_mem _ hq))
        (fun q hq => hne q (List.mem_cons_of_mem _ hq))
        (fun q hq => hhalf q (List.mem_cons_of_mem _ hq))
        (fun q hq => hmax q (List.mem_cons_of_mem _ hq))]
    have hstarts : (starts ++ [intervalStart (cumIntervalCt m i)]) ++
        rest.map (cumStart m) = starts ++ (⟨i, dref⟩ :: rest).map (cumStart m) := by
      rw [List.append_assoc]
      rfl
    have hnum1 : (if cumDurOne ctx m (i, dref) then num1 + 1 else num1) +
        (rest.filter (cumDurOne ctx m)).length =
        num1 + ((⟨i, dref⟩ :: rest).filter (cumDurOne ctx m)).length := by
      by_cases hone : cumDurOne ctx m (i, dref) = true
      · rw [if_pos hone]
        rw [List.filter_cons_of_pos hone]
        simp
        omega
      · rw [if_neg hone]
        rw [List.filter_cons_of_neg (by simpa using hone)]
    have hhalfc : numHalf + 1 + rest.length = numHalf + (rest.length + 1) := by
      omega
    have hopt : ((hasOpt || cumOptional m (i, dref)) || rest.any (cumOptional m)) =
        (hasOpt || ((i, dref) :: rest).any (cumOptional m)) := by
      rw [List.any_cons, Bool.or_assoc]
    rw [hstarts, hnum1, hhalfc, hopt]
    rfl

theorem length_filter_eq_of_all {α : Type _} (l : List α) (p : α → Bool)
    (h : ∀ a ∈ l, p a = true) : (l.filter p).length = l.length := by
  rw [List.filter_eq_self.2 h]

theorem all_of_filter_length_eq {α : Type _} (l : List α) (p : α → Bool)
    (h : (l.filter p).length = l.length) : ∀ a ∈ l, p a = true := by
  induction l with
  | nil => simp
  | cons x rest ih =>
    by_cases hx : p x = true
    · intro a ha
      rcases List.mem_cons.1 ha with rfl | ha
      · exact hx
      · refine ih ?_ a ha
        rw [List.filter_cons_of_pos hx] at h
        simpa using h
    · exfalso
      rw [List.filter_cons_of_neg (by simpa using hx)] at h
      have hle := List.length_filter_le p rest
      simp only [List.length_cons] at h
      omega

/-- Claim C7 (amended): given dropped cleared intervals, a fixed capacity,
no enforcement literal, no possibly-zero duration, every minimum demand
above half the capacity, and — the amendment — no demand able to exceed
the capacity, the cumulative constraint is removed and replaced by an
all-different over the interval start references when every duration is
fixed to one and no interval is optional, and by a no-overlap over the same
intervals otherwise. -/
theorem c7_cumulative_conversion (ctx : PCtx) (m : WModel)
    (ints : List Nat) (dems : List Int) (cap : Int)
    (hlen : ints.length = dems.length)
    (hfix : IsFixed ctx cap = true)
    (hlive : ∀ p ∈ ints.zip dems,
      (m.constraints.getD p.1 clearedCt).kind ≠ CKind.notSet)
    (hdur : ∀ p ∈ ints.zip dems,
      MinOf ctx (intervalSize (cumIntervalCt m p.1)) ≠ 0)
    (hne : ∀ p ∈ ints.zip dems, (ctx.domains.getD (pvar p.2) ∅).Nonempty)
    (hhalf : ∀ p ∈ ints.zip dems, MinOf ctx p.2 > MinOf ctx cap / 2)
    (hmax : ∀ p ∈ ints.zip dems, MaxOf ctx p.2 ≤ MinOf ctx cap) :
    let res := PresolveCumulative ctx m ⟨[], CKind.cumulative ints dems cap⟩
    ((∀ p ∈ ints.zip dems, cumDurOne ctx m p = true ∧ cumOptional m p = false) →
      res = (ctx, { m with constraints := m.constraints ++
          [⟨[], CKind.allDiff ((ints.zip dems).map (cumStart m))⟩] },
        clearedCt, true)) ∧
    ((¬ ∀ p ∈ ints.zip dems, cumDurOne ctx m p = true ∧ cumOptional m p = false) →
      res = (ctx, { m with constraints := m.constraints ++
          [⟨[], CKind.noOverlap ints⟩] },
        clearedCt, true)) := by
  intro res
  have hkept : (ints.zip dems).filter
      (fun p => (m.constraints.getD p.1 clearedCt).kind ≠ CKind.notSet) =
      ints.zip dems := by
    apply List.filter_eq_self.2
    intro p hp
    simpa using hlive p hp
  have hfst : (ints.zip dems).map Prod.fst = ints :=
    List.map_fst_zip _ _ (le_of_eq hlen)
  have hscan := cumScan_done m (MinOf ctx cap) ctx (ints.zip dems) [] 0 0 false
    hdur hne hhalf hmax
  have hres : res = PresolveCumulativeArgs ctx m [] ints dems cap := rfl
  have hbody : PresolveCumulativeArgs ctx m [] ints dems cap =
      (if (0 + (ints.zip dems).length) = (ints.zip dems).length then
        if (0 + ((ints.zip dems).filter (cumDurOne ctx m)).length) =
            (ints.zip dems).length ∧
            ¬ (false || (ints.zip dems).any (cumOptional m)) then
          (ctx, { m with constraints := m.constraints ++
              [⟨[], CKind.allDiff ([] ++ (ints.zip dems).map (cumStart m))⟩] },
            clearedCt, true)
        else
          (ctx, { m with constraints := m.constraints ++
              [⟨[], CKind.noOverlap ((ints.zip dems).map Prod.fst)⟩] },
            clearedCt, true)
      else (ctx, m,
        ⟨[], CKind.cumulative ((ints.zip dems).map Prod.fst)
          ((ints.zip dems).map Prod.snd) cap⟩,
        decide ((ints.zip dems).length < ints.length))) := by
    unfold PresolveCumulativeArgs
    simp only [hkept]
    rw [if_neg (by simp : ¬ (([] : List Int) ≠ []))]
    rw [if_neg (by simp [hfix] : ¬ ¬ IsFixed ctx cap = true)]
    rw [hscan]
  rw [hres, hbody]
  rw [if_pos (by omega)]
  constructor
  · intro hall
    have hd1 : (ints.zip dems).filter (cumDurOne ctx m) = ints.zip dems :=
      List.filter_eq_self.2 (fun p hp => (hall p hp).1)
    have ho1 : (ints.zip dems).any (cumOptional m) = false := by
      rw [List.any_eq_false]
      intro p hp
      simp [(hall p hp).2]
    rw [if_pos (by rw [hd1, ho1]; simp)]
    simp
  · intro hnall
    have hcond : ¬ ((0 + ((ints.zip dems).filter (cumDurOne ctx m)).length) =
        (ints.zip dems).length ∧
        ¬ (false || (ints.zip dems).any (cumOptional m))) := by
      rintro ⟨h1, h2⟩
      apply hnall
      intro p hp
      have hlenf : ((ints.zip dems).filter (cumDurOne ctx m)).length =
          (ints.zip dems).length := by omega
      have hall1 := all_of_filter_length_eq _ _ hlenf
      have hany : (ints.zip dems).any (cumOptional m) = false := by
        simpa using h2
      refine ⟨hall1 p hp, ?_⟩
      have := (List.any_eq_false.1 hany) p hp
      simpa using this
    rw [if_neg hcond]
    rw [hfst]

/-- Counterexample for C7 as stated: a single non-optional interval of
fixed duration 1 with fixed demand 3 and fixed capacity 2 meets every
precondition of the claim (the minimum demand 3 exceeds half the capacity),
yet the constraint is not replaced by an all-different or a no-overlap: the
scan hits the `demand_min > capacity` early return, sets the unsat flag,
keeps the (truncated) cumulative constraint and appends nothing. -/
theorem c7_cumulative_counterexample :
    let ctx0 : PCtx :=
      { domains := [({2} : Finset ℤ), {3}, {0}, {1}, {1}], modified := ∅,
        isUnsat := false, varNumConstraints := [1, 1, 1, 1, 1],
        enumerateAll := false }
    let m0 : WModel := ⟨[], [⟨[], CKind.interval 2 3 4⟩]⟩
    let res := PresolveCumulative ctx0 m0 ⟨[], CKind.cumulative [0] [1] 0⟩
    (IsFixed ctx0 0 = true ∧
      (m0.constraints.getD 0 clearedCt).kind ≠ CKind.notSet ∧
      MinOf ctx0 (intervalSize (cumIntervalCt m0 0)) ≠ 0 ∧
      MinOf ctx0 1 > MinOf ctx0 0 / 2 ∧
      cumDurOne ctx0 m0 (0, 1) = true ∧ cumOptional m0 (0, 1) = false) ∧
    res.2.2.1 = ⟨[], CKind.cumulative [0] [1] 0⟩ ∧
    res.2.1 = m0 ∧
    res.1.isUnsat = true := by
  decide

/-- Witness for the amended C7: one interval of fixed duration 1, fixed
demand 2 and fixed capacity 2 (demand within capacity) is converted to an
all-different over the start reference. -/
theorem c7_cumulative_conversion_witness :
    let ctx0 : PCtx :=
      { domains := [({2} : Finset ℤ), {2}, {0}, {1}, {1}], modified := ∅,
        isUnsat := false, varNumConstraints := [1, 1, 1, 1, 1],
        enumerateAll := false }
    let m0 : WModel := ⟨[], [⟨[], CKind.interval 2 3 4⟩]⟩
    let res := PresolveCumulative ctx0 m0 ⟨[], CKind.cumulative [0] [1] 0⟩
    ((∀ p ∈ [(0 : Nat)].zip [(1 : Int)],
        cumDurOne ctx0 m0 p = true ∧ cumOptional m0 p = false) →
      res = (ctx0, { m0 with constraints := m0.constraints ++
          [⟨[], CKind.allDiff (([(0 : Nat)].zip [(1 : Int)]).map (cumStart m0))⟩] },
        clearedCt, true)) ∧
    ((¬ ∀ p ∈ [(0 : Nat)].zip [(1 : Int)],
        cumDurOne ctx0 m0 p = true ∧ cumOptional m0 p = false) →
      res = (ctx0, { m0 with constraints := m0.constraints ++
          [⟨[], CKind.noOverlap [0]⟩] },
        clearedCt, true)) :=
  c7_cumulative_conversion _ _ [0] [1] 0 (by decide) (by decide) (by decide)
    (by decide) (by decide) (by decide) (by decide)

/-! ### The integer trail (`IntegerTrail`, integer.cc)

The trail-side `Domain` keeps the sorted-interval-list representation,
because `Enqueue` canonicalizes bounds against the interval structure.
Boolean-literal associations (the encoder) and optional variables are not
present in this model: the encoder maps are empty and `is_ignored_literals_`
holds no literal, which is a valid instance of the source state, so
`IsCurrentlyIgnored` is false and `SearchForLiteralAtOrBefore` finds
nothing.  The reason buffers, which never influence bounds, are omitted. -/

/-- One entry of `integer_trail_`: the new lower bound, the variable, and
the previous trail index of the same variable. -/
structure TrailEntry where
  bound : Int
  var : Nat
  prev : Nat
  deriving DecidableEq, Inhabited

/-- The cached per-variable state `vars_[v]`: `current_bound` and
`current_trail_index`. -/
structure VarInfo where
  bound : Int
  idx : Nat
  deriving DecidableEq, Inhabited

/-- Trail-side domain: sorted disjoint closed intervals. -/
abbrev IL := List (Int × Int)

/-- Modelled from the spec: the reversible map
`var_to_current_lb_interval_index_` (`util/rev.h`, not under `src/`): a
map with per-level undo records, restored by `SetLevel`. -/
structure RevMapN where
  level : Nat
  map : Nat → Nat
  undo : List (Nat × Nat)
  ends : List Nat

/-- `RevMap::Set`: at positive level, save the old binding for undo. -/
def RevMapN.set (r : RevMapN) (k v : Nat) : RevMapN :=
  if r.level = 0 then { r with map := fun x => if x = k then v else r.map x }
  else
    { r with
      map := fun x => if x = k then v else r.map x
      undo := (k, r.map k) :: r.undo }

/-- Replay undo records, newest first. -/
def revRestore : (Nat → Nat) → List (Nat × Nat) → Nat → Nat
  | f, [] => f
  | f, (k, old) :: rest => revRestore (fun x => if x = k then old else f x) rest

/-- `RevMap::SetLevel`: restore on backtrack, mark on level increase. -/
def RevMapN.setLevel (r : RevMapN) (lv : Nat) : RevMapN :=
  if lv < r.level then
    let keep := r.ends.getD lv 0
    let n := r.undo.length - keep
    { level := lv, map := revRestore r.map (r.undo.take n),
      undo := r.undo.drop n, ends := r.ends.take lv }
  else if r.level < lv then
    { r with level := lv,
             ends := r.ends ++ List.replicate (lv - r.level) r.undo.length }
  else r

/-- The integer trail state: `vars_`, `integer_trail_`,
`integer_search_levels_`, `domains_` and
`var_to_current_lb_interval_index_`. -/
structure ITrail where
  vars : List VarInfo
  trail : List TrailEntry
  levels : List Nat
  domains : List IL
  lb : RevMapN

/-- `vars_[v]`. -/
def getVar (s : ITrail) (v : Nat) : VarInfo := s.vars.getD v default

/-- `(*domains_)[v]`. -/
def domOf (s : ITrail) (v : Nat) : IL := s.domains.getD v []

/-- `NegationOf(v)`: a variable and its negation share consecutive even/odd
indices (`i ^ 1`). -/
def NegationOf (v : Nat) : Nat := if v % 2 = 0 then v + 1 else v - 1

/-- `IntegerTrail::LowerBound(v) = vars_[v].current_bound`. -/
def LowerBound (s : ITrail) (v : Nat) : Int := (getVar s v).bound

/-- `IntegerTrail::UpperBound(v) = -LowerBound(NegationOf(v))` (from
integer.h). -/
def UpperBound (s : ITrail) (v : Nat) : Int := -(LowerBound s (NegationOf v))

/-- Modelled from the spec: `Domain::Negation()` on interval lists. -/
def negIL (l : IL) : IL := (l.map (fun p => (-p.2, -p.1))).reverse

/-- Modelled from the spec: `Domain::IntersectionWith` on interval lists
(pairwise interval intersection, order preserving). -/
def interIL (a b : IL) : IL :=
  a.foldr (fun p acc =>
    (b.filterMap (fun q =>
      if max p.1 q.1 ≤ min p.2 q.2 then some (max p.1 q.1, min p.2 q.2)
      else none)) ++ acc) []

/-- `Domain::Min()` on interval lists. -/
def ilMin (l : IL) : Int := (l.headD (0, 0)).1

/-- `Domain::Max()` on interval lists. -/
def ilMax (l : IL) : Int := (l.getLastD (0, 0)).2

/-- Membership in some interval of the list (the complement of the holes). -/
def inIL (l : IL) (x : Int) : Bool := l.any (fun p => p.1 ≤ x && x ≤ p.2)

/-- The canonicalization advance of `Enqueue` (source lines 896-900):
`while (index < size && i_lit.bound > domain[index].end) ++index`. -/
def advanceIdx (dom : IL) (bound : Int) (idx : Nat) : Nat :=
  if idx < dom.length then
    if bound > (dom.getD idx (0, 0)).2 then advanceIdx dom bound (idx + 1)
    else idx
  else idx
termination_by dom.length - idx
decreasing_by omega

mutual

/-- `IntegerTrail::Enqueue` (source lines 871-1024), instantiated with an
empty encoder and no optional variables, with `fuel` bounding the
level-zero recursion through `UpdateInitialDomain`.  The no-better-bound
early return, the canonicalization against a multi-interval domain (with
conflict when no feasible interval remains), the upper-bound conflict, the
level-zero in-place update and the positive-level push are all from the
source. -/
def Enqueue : Nat → ITrail → Nat → Int → Bool × ITrail
  | 0, s, _, _ => (true, s)
  | fuel + 1, s, v, bound =>
    if bound ≤ (getVar s v).bound then (true, s)
    else
      let dom := domOf s v
      if 1 < dom.length then
        let idx := advanceIdx dom bound (s.lb.map v)
        if idx = dom.length then (false, s)
        else
          EnqueueTail fuel { s with lb := RevMapN.set s.lb v idx } v
            (max bound (dom.getD idx (0, 0)).1)
      else EnqueueTail fuel s v bound
termination_by fuel s v bound => (fuel, 2)

/-- The common tail of `Enqueue` after canonicalization: upper-bound
conflict check, level-zero in-place update followed by
`UpdateInitialDomain`, or trail push at a positive level. -/
def EnqueueTail : Nat → ITrail → Nat → Int → Bool × ITrail
  | fuel, s, v, bound =>
    if bound > UpperBound s v then (false, s)
    else if s.levels = [] then
      let s2 : ITrail :=
        { s with
          vars := s.vars.set v ⟨bound, (getVar s v).idx⟩
          trail := s.trail.set v
            { s.trail.getD v default with bound := bound } }
      UpdateInitialDomain fuel s2 v [(LowerBound s2 v, UpperBound s2 v)]
    else
      (true,
        { s with
          trail := s.trail ++ [⟨bound, v, (getVar s v).idx⟩]
          vars := s.vars.set v ⟨bound, s.trail.length⟩ })
termination_by fuel s v bound => (fuel, 1)

/-- `IntegerTrail::UpdateInitialDomain` (source lines 564-614) with an
empty partial encoding: intersect the static domain, mirror it on the
negated variable, reset the interval-index cache on multi-interval
domains, and push the two implied bounds through `Enqueue`. -/
def UpdateInitialDomain : Nat → ITrail → Nat → IL → Bool × ITrail
  | 0, s, _, _ => (true, s)
  | fuel + 1, s, v, d =>
    let old := domOf s v
    let d2 := interIL d old
    if d2 = old then (true, s)
    else if d2 = [] then (false, s)
    else
      let s1 : ITrail :=
        { s with domains := (s.domains.set v d2).set (NegationOf v) (negIL d2) }
      let s2 := if 1 < d2.length then
          { s1 with lb := (RevMapN.set s1.lb v 0).set (NegationOf v) 0 }
        else s1
      let r1 := Enqueue fuel s2 v (ilMin d2)
      let r2 := Enqueue fuel r1.2 (NegationOf v) (-(ilMax d2))
      (r1.1 && r2.1, r2.2)
termination_by fuel s v d => (fuel, 0)

end

/-- The downward restoration walk of `IntegerTrail::Untrail` (source lines
500-506): for `index` from the top of the trail down to `target`, restore
`vars_[entry.var]` from the entry's back pointer. -/
def restoreDown (full : List TrailEntry) : Nat → Nat → List VarInfo → List VarInfo
  | 0, _, vars => vars
  | i + 1, target, vars =>
    if i + 1 ≤ target then vars
    else
      let e := full.getD i default
      restoreDown full i target
        (vars.set e.var ⟨(full.getD e.prev default).bound, e.prev⟩)

/-- `IntegerTrail::Untrail` (source lines 485-518): notify reversible
classes, no-op when there is nothing to backtrack, otherwise restore the
per-variable caches by the back-pointer walk, truncate the trail and the
level stack.  (The reason arrays, truncated on the same path, hold no
bound information.) -/
def Untrail (s : ITrail) (level : Nat) : ITrail :=
  let s0 : ITrail := { s with lb := RevMapN.setLevel s.lb level }
  if s0.levels.length ≤ level then s0
  else
    let target := s0.levels.getD level 0
    { s0 with
      levels := s0.levels.take level
      vars := restoreDown s0.trail s0.trail.length target s0.vars
      trail := s0.trail.take target }

/-- `IntegerTrail::AddIntegerVariable(lower_bound, upper_bound)` (source
lines 520-550): push the variable and, at the next index, its negation,
with mirrored bounds, base trail entries and domains. -/
def AddIntegerVariable (s : ITrail) (lb ub : Int) : Nat × ITrail :=
  let i := s.vars.length
  let s1 : ITrail :=
    { s with
      vars := s.vars ++ [⟨lb, s.trail.length⟩]
      trail := s.trail ++ [⟨lb, i, 0⟩]
      domains := s.domains ++ [[(lb, ub)]] }
  let s2 : ITrail :=
    { s1 with
      vars := s1.vars ++ [⟨-ub, s1.trail.length⟩]
      trail := s1.trail ++ [⟨-ub, i + 1, 0⟩]
      domains := s1.domains ++ [[(-ub, -lb)]] }
  (i, s2)

/-- Opening a new decision level (source lines 444-452 of
`IntegerTrail::Propagate`): record the current trail size in
`integer_search_levels_` and notify the reversible interval-index map. -/
def PushLevel (s : ITrail) : ITrail :=
  { s with
    levels := s.levels ++ [s.trail.length]
    lb := RevMapN.setLevel s.lb (s.levels.length + 1) }

/-- One step of a matched-level scenario: open a level or enqueue. -/
inductive TrailOp where
  | newLevel
  | enq (v : Nat) (bound : Int)

/-- Run a sequence of trail operations, conjoining the `Enqueue` results. -/
def runOps (fuel : Nat) : ITrail → List TrailOp → Bool × ITrail
  | s, [] => (true, s)
  | s, TrailOp.newLevel :: rest => runOps fuel (PushLevel s) rest
  | s, TrailOp.enq v b :: rest =>
    let r := Enqueue fuel s v b
    let r2 := runOps fuel r.2 rest
    (r.1 && r2.1, r2.2)

/-! ### List helpers for the trail proofs -/

theorem set_oob {α : Type _} (l : List α) (i : Nat) (a : α)
    (h : l.length ≤ i) : l.set i a = l := by
  induction l generalizing i with
  | nil => rfl
  | cons x xs ih =>
    cases i with
    | zero => simp at h
    | succ n =>
      simp only [List.set]
      rw [ih n (by simpa using h)]

theorem set_getD_self {α : Type _} [Inhabited α] (l : List α) (i : Nat) :
    l.set i (l.getD i default) = l := by
  induction l generalizing i with
  | nil => rfl
  | cons x xs ih =>
    cases i with
    | zero => simp [List.getD]
    | succ n =>
      simp only [List.set, List.getD_cons_succ]
      rw [ih n]

theorem getD_append_left {α : Type _} (l l' : List α) (n : Nat) (d : α)
    (h : n < l.length) : (l ++ l').getD n d = l.getD n d := by
  rw [List.getD_eq_getElem?_getD, List.getElem?_append, if_pos h,
    ← List.getD_eq_getElem?_getD]

theorem getD_append_self {α : Type _} (l : List α) (x : α) (d : α) :
    (l ++ [x]).getD l.length d = x := by
  induction l with
  | nil => rfl
  | cons y ys ih => simpa using ih

theorem getD_zero_append {α : Type _} (l l' : List α) (d : α) (h : l ≠ []) :
    (l ++ l').getD 0 d = l.getD 0 d := by
  cases l with
  | nil => exact absurd rfl h
  | cons x xs => rfl

/-! ### Unfolding lemmas for the trail operations -/

theorem Enqueue_zero (s : ITrail) (v : Nat) (bound : Int) :
    Enqueue 0 s v bound = (true, s) := by
  simp [Enqueue]

theorem Enqueue_succ (fuel : Nat) (s : ITrail) (v : Nat) (bound : Int) :
    Enqueue (fuel + 1) s v bound =
      if bound ≤ (getVar s v).bound then (true, s)
      else
        if 1 < (domOf s v).length then
          if advanceIdx (domOf s v) bound (s.lb.map v) = (domOf s v).length then
            (false, s)
          else
            EnqueueTail fuel
              { s with lb := (RevMapN.set s.lb v
                  (advanceIdx (domOf s v) bound (s.lb.map v))) } v
              (max bound ((domOf s v).getD
                (advanceIdx (domOf s v) bound (s.lb.map v)) (0, 0)).1)
        else EnqueueTail fuel s v bound := by
  rw [Enqueue]

theorem EnqueueTail_eq (fuel : Nat) (s : ITrail) (v : Nat) (bound : Int) :
    EnqueueTail fuel s v bound =
      if bound > UpperBound s v then (false, s)
      else if s.levels = [] then
        UpdateInitialDomain fuel
          { s with
            vars := s.vars.set v ⟨bound, (getVar s v).idx⟩
            trail := s.trail.set v
              { s.trail.getD v default with bound := bound } } v
          [(LowerBound { s with
              vars := s.vars.set v ⟨bound, (getVar s v).idx⟩
              trail := s.trail.set v
                { s.trail.getD v default with bound := bound } } v,
            UpperBound { s with
              vars := s.vars.set v ⟨bound, (getVar s v).idx⟩
              trail := s.trail.set v
                { s.trail.getD v default with bound := bound } } v)]
      else
        (true,
          { s with
            trail := s.trail ++ [⟨bound, v, (getVar s v).idx⟩]
            vars := s.vars.set v ⟨bound, s.trail.length⟩ }) := by
  rw [EnqueueTail]

theorem advanceIdx_spec (dom : IL) (bound : Int) :
    ∀ fuel idx, dom.length - idx ≤ fuel → idx ≤ dom.length →
      idx ≤ advanceIdx dom bound idx ∧
      advanceIdx dom bound idx ≤ dom.length ∧
      (∀ k, idx ≤ k → k < advanceIdx dom bound idx →
        bound > (dom.getD k (0, 0)).2) ∧
      (advanceIdx dom bound idx < dom.length →
        bound ≤ (dom.getD (advanceIdx dom bound idx) (0, 0)).2) := by
  intro fuel
  induction fuel with
  | zero =>
    intro idx h1 h2
    have hidx : idx = dom.length := by omega
    have hstep : advanceIdx dom bound idx = idx := by
      rw [advanceIdx]
      rw [if_neg (by omega)]
    rw [hstep]
    exact ⟨le_refl _, le_of_eq hidx, fun k hk1 hk2 => absurd hk1 (by omega),
      fun h => absurd h (by omega)⟩
  | succ n ih =>
    intro idx h1 h2
    by_cases hlt : idx < dom.length
    · by_cases hb : bound > (dom.getD idx (0, 0)).2
      · have hstep : advanceIdx dom bound idx = advanceIdx dom bound (idx + 1) := by
          conv_lhs => rw [advanceIdx]
          rw [if_pos hlt, if_pos hb]
        rcases ih (idx + 1) (by omega) (by omega) with ⟨i1, i2, i3, i4⟩
        rw [hstep]
        refine ⟨by omega, i2, ?_, i4⟩
        intro k hk1 hk2
        rcases Nat.eq_or_lt_of_le hk1 with rfl | hk1
        · exact hb
        · exact i3 k (by omega) hk2
      · have hstep : advanceIdx dom bound idx = idx := by
          conv_lhs => rw [advanceIdx]
          rw [if_pos hlt, if_neg hb]
        rw [hstep]
        exact ⟨le_refl _, le_of_lt hlt, fun k hk1 hk2 => absurd hk1 (by omega),
          fun _ => by omega⟩
    · have hstep : advanceIdx dom bound idx = idx := by
        rw [advanceIdx]
        rw [if_neg hlt]
      rw [hstep]
      exact ⟨le_refl _, by omega, fun k hk1 hk2 => absurd hk1 (by omega),
        fun h => absurd h (by omega)⟩

theorem restoreDown_of_le (full : List TrailEntry) :
    ∀ i target vars, i ≤ target → restoreDown full i target vars = vars := by
  intro i
  cases i with
  | zero => intros; rfl
  | succ n =>
    intro target vars h
    unfold restoreDown
    rw [if_pos h]

theorem restoreDown_append (t : List TrailEntry) (e : TrailEntry)
    (hprev : ∀ j, j < t.length → (t.getD j default).prev < t.length) :
    ∀ i, i ≤ t.length → ∀ target vars,
      restoreDown (t ++ [e]) i target vars = restoreDown t i target vars := by
  intro i
  induction i with
  | zero => intros; rfl
  | succ n ih =>
    intro hle target vars
    unfold restoreDown
    by_cases hta : n + 1 ≤ target
    · rw [if_pos hta, if_pos hta]
    · rw [if_neg hta, if_neg hta]
      have hn : n < t.length := by omega
      have hgetn : (t ++ [e]).getD n default = t.getD n default :=
        getD_append_left t [e] n default hn
      have hgetp : (t ++ [e]).getD (t.getD n default).prev default =
          t.getD (t.getD n default).prev default :=
        getD_append_left t [e] _ default (hprev n hn)
      simp only [hgetn]
      simp only [hgetp]
      exact ih (by omega) target _

theorem restoreDown_succ (full : List TrailEntry) (i target : Nat)
    (vars : List VarInfo) :
    restoreDown full (i + 1) target vars =
      if i + 1 ≤ target then vars
      else
        restoreDown full i target
          (vars.set (full.getD i default).var
            ⟨(full.getD (full.getD i default).prev default).bound,
              (full.getD i default).prev⟩) := rfl

/-- The trail coherence invariant, over the raw `vars_` and
`integer_trail_` arrays: each cached `current_trail_index` points at an
in-range entry of the variable itself carrying `current_bound`, and every
entry's back pointer is in range. -/
def TInvVT (vars : List VarInfo) (trail : List TrailEntry) : Prop :=
  (∀ v, v < vars.length →
    (vars.getD v default).idx < trail.length ∧
    (trail.getD (vars.getD v default).idx default).var = v ∧
    (trail.getD (vars.getD v default).idx default).bound =
      (vars.getD v default).bound) ∧
  (∀ j, j < trail.length → (trail.getD j default).prev < trail.length)

/-- The trail coherence invariant of a trail state. -/
def TInv (s : ITrail) : Prop := TInvVT s.vars s.trail

theorem TInvVT_push (vars : List VarInfo) (trail : List TrailEntry)
    (v : Nat) (b : Int) (hinv : TInvVT vars trail) :
    TInvVT (vars.set v ⟨b, trail.length⟩)
      (trail ++ [⟨b, v, (vars.getD v default).idx⟩]) := by
  obtain ⟨h1, h2⟩ := hinv
  have hlen : (trail ++ [(⟨b, v, (vars.getD v default).idx⟩ : TrailEntry)]).length =
      trail.length + 1 := by simp
  constructor
  · intro w hw
    have hw' : w < vars.length := by simpa using hw
    by_cases hvw : w = v
    · subst hvw
      have hg : (vars.set w ⟨b, trail.length⟩).getD w default =
          (⟨b, trail.length⟩ : VarInfo) := getD_set_self _ _ _ _ hw'
      simp only [hg, getD_append_self, hlen]
      refine ⟨by omega, ?_, ?_⟩ <;> simp
    · have hg : (vars.set v ⟨b, trail.length⟩).getD w default =
          vars.getD w default := getD_set_ne _ _ _ (fun h => hvw h.symm)
      obtain ⟨hidx, hvar, hbound⟩ := h1 w hw'
      have hget : (trail ++ [(⟨b, v, (vars.getD v default).idx⟩ : TrailEntry)]).getD
          (vars.getD w default).idx default =
          trail.getD (vars.getD w default).idx default :=
        getD_append_left _ _ _ _ hidx
      simp only [hg, hget, hlen]
      exact ⟨Nat.lt_succ_of_lt hidx, hvar, hbound⟩
  · intro j hj
    rw [hlen] at hj
    by_cases hjl : j < trail.length
    · have hget : (trail ++ [(⟨b, v, (vars.getD v default).idx⟩ : TrailEntry)]).getD
          j default = trail.getD j default := getD_append_left _ _ _ _ hjl
      rw [hget, hlen]
      exact Nat.lt_succ_of_lt (h2 j hjl)
    · have hje : j = trail.length := by omega
      subst hje
      rw [getD_append_self, hlen]
      by_cases hv : v < vars.length
      · exact Nat.lt_succ_of_lt (h1 v hv).1
      · have hdef : vars.getD v default = default :=
          List.getD_eq_default _ _ (Nat.le_of_not_lt hv)
        rw [hdef]
        show (0 : Nat) < trail.length + 1
        omega

theorem restore_push (vars : List VarInfo) (trail : List TrailEntry)
    (v : Nat) (b : Int) (target : Nat)
    (hinv : TInvVT vars trail) (htar : target ≤ trail.length) :
    restoreDown (trail ++ [⟨b, v, (vars.getD v default).idx⟩])
      (trail.length + 1) target (vars.set v ⟨b, trail.length⟩) =
    restoreDown trail trail.length target vars := by
  obtain ⟨h1, h2⟩ := hinv
  have hlen1 : ¬ (trail.length + 1 ≤ target) := by omega
  rw [restoreDown_succ, if_neg hlen1]
  simp only [getD_append_self]
  by_cases hv : v < vars.length
  · obtain ⟨hidx, hvar, hbound⟩ := h1 v hv
    have hget : (trail ++ [(⟨b, v, (vars.getD v default).idx⟩ : TrailEntry)]).getD
        (vars.getD v default).idx default =
        trail.getD (vars.getD v default).idx default :=
      getD_append_left _ _ _ _ hidx
    simp only [hget, List.set_set, hbound]
    have hval : (⟨(vars.getD v default).bound, (vars.getD v default).idx⟩ :
        VarInfo) = vars.getD v default := rfl
    rw [hval, set_getD_self]
    exact restoreDown_append trail _ h2 trail.length (le_refl _) target vars
  · have hle : vars.length ≤ v := Nat.le_of_not_lt hv
    rw [set_oob _ _ _ hle, set_oob _ _ _ hle]
    exact restoreDown_append trail _ h2 trail.length (le_refl _) target vars

theorem enqueueTail_step_facts (fuel : Nat) (s : ITrail) (v : Nat) (bound : Int)
    (hlev : s.levels ≠ []) (hinv : TInv s) :
    TInv (EnqueueTail fuel s v bound).2 ∧
    (EnqueueTail fuel s v bound).2.levels = s.levels ∧
    (EnqueueTail fuel s v bound).2.vars.length = s.vars.length ∧
    s.trail.length ≤ (EnqueueTail fuel s v bound).2.trail.length ∧
    (∀ target, target ≤ s.trail.length →
      restoreDown (EnqueueTail fuel s v bound).2.trail
        (EnqueueTail fuel s v bound).2.trail.length target
        (EnqueueTail fuel s v bound).2.vars =
      restoreDown s.trail s.trail.length target s.vars) := by
  rw [EnqueueTail_eq]
  by_cases hub : bound > UpperBound s v
  · rw [if_pos hub]
    exact ⟨hinv, rfl, rfl, le_refl _, fun _ _ => rfl⟩
  · rw [if_neg hub, if_neg hlev]
    refine ⟨?_, rfl, ?_, ?_, ?_⟩
    · show TInvVT (s.vars.set v ⟨bound, s.trail.length⟩)
        (s.trail ++ [⟨bound, v, (getVar s v).idx⟩])
      exact TInvVT_push s.vars s.trail v bound hinv
    · show (s.vars.set v ⟨bound, s.trail.length⟩).length = s.vars.length
      exact List.length_set s.vars _ _
    · show s.trail.length ≤
        (s.trail ++ [(⟨bound, v, (getVar s v).idx⟩ : TrailEntry)]).length
      simp
    · intro target htar
      show restoreDown (s.trail ++ [(⟨bound, v, (getVar s v).idx⟩ : TrailEntry)])
        (s.trail ++ [(⟨bound, v, (getVar s v).idx⟩ : TrailEntry)]).length target
        (s.vars.set v ⟨bound, s.trail.length⟩) = _
      have hl : (s.trail ++ [(⟨bound, v, (getVar s v).idx⟩ : TrailEntry)]).length =
          s.trail.length + 1 := by simp
      rw [hl]
      exact restore_push s.vars s.trail v bound target hinv htar

theorem enqueue_step_facts (fuel : Nat) (s : ITrail) (v : Nat) (bound : Int)
    (hlev : s.levels ≠ []) (hinv : TInv s) :
    TInv (Enqueue fuel s v bound).2 ∧
    (Enqueue fuel s v bound).2.levels = s.levels ∧
    (Enqueue fuel s v bound).2.vars.length = s.vars.length ∧
    s.trail.length ≤ (Enqueue fuel s v bound).2.trail.length ∧
    (∀ target, target ≤ s.trail.length →
      restoreDown (Enqueue fuel s v bound).2.trail
        (Enqueue fuel s v bound).2.trail.length target
        (Enqueue fuel s v bound).2.vars =
      restoreDown s.trail s.trail.length target s.vars) := by
  cases fuel with
  | zero =>
    rw [Enqueue_zero]
    exact ⟨hinv, rfl, rfl, le_refl _, fun _ _ => rfl⟩
  | succ n =>
    rw [Enqueue_succ]
    by_cases h1 : bound ≤ (getVar s v).bound
    · rw [if_pos h1]
      exact ⟨hinv, rfl, rfl, le_refl _, fun _ _ => rfl⟩
    · rw [if_neg h1]
      by_cases h2 : 1 < (domOf s v).length
      · rw [if_pos h2]
        by_cases h3 : advanceIdx (domOf s v) bound (s.lb.map v) = (domOf s v).length
        · rw [if_pos h3]
          exact ⟨hinv, rfl, rfl, le_refl _, fun _ _ => rfl⟩
        · rw [if_neg h3]
          exact enqueueTail_step_facts n
            { s with lb := (RevMapN.set s.lb v
                (advanceIdx (domOf s v) bound (s.lb.map v))) } v
            (max bound ((domOf s v).getD
              (advanceIdx (domOf s v) bound (s.lb.map v)) (0, 0)).1)
            hlev hinv
      · rw [if_neg h2]
        exact enqueueTail_step_facts n s v bound hlev hinv

theorem runOps_facts (fuel : Nat) (target : Nat) (vars0 : List VarInfo) :
    ∀ (ops : List TrailOp) (s : ITrail), TInv s → s.levels ≠ [] →
      target ≤ s.trail.length → s.levels.getD 0 0 = target →
      restoreDown s.trail s.trail.length target s.vars = vars0 →
      TInv (runOps fuel s ops).2 ∧ (runOps fuel s ops).2.levels ≠ [] ∧
      target ≤ (runOps fuel s ops).2.trail.length ∧
      (runOps fuel s ops).2.levels.getD 0 0 = target ∧
      restoreDown (runOps fuel s ops).2.trail
        (runOps fuel s ops).2.trail.length target
        (runOps fuel s ops).2.vars = vars0 := by
  intro ops
  induction ops with
  | nil =>
    intro s h1 h2 h3 h4 h5
    exact ⟨h1, h2, h3, h4, h5⟩
  | cons op rest ih =>
    intro s h1 h2 h3 h4 h5
    cases op with
    | newLevel =>
      exact ih (PushLevel s) h1 (by show s.levels ++ [s.trail.length] ≠ []; simp)
        h3
        (by
          show (s.levels ++ [s.trail.length]).getD 0 0 = target
          rw [getD_zero_append _ _ _ h2]
          exact h4)
        h5
    | enq v b =>
      have hstep := enqueue_step_facts fuel s v b h2 h1
      exact ih (Enqueue fuel s v b).2 hstep.1
        (by rw [hstep.2.1]; exact h2)
        (le_trans h3 hstep.2.2.2.1)
        (by rw [hstep.2.1]; exact h4)
        (by rw [hstep.2.2.2.2 target h3]; exact h5)

theorem Untrail_eq (s : ITrail) (level : Nat)
    (h : ¬ (s.levels.length ≤ level)) :
    Untrail s level =
      { s with
        lb := RevMapN.setLevel s.lb level
        levels := s.levels.take level
        vars := restoreDown s.trail s.trail.length (s.levels.getD level 0) s.vars
        trail := s.trail.take (s.levels.getD level 0) } := by
  unfold Untrail
  rw [if_neg h]

/-- Claim C4: for every sequence of `Enqueue` calls at decision levels ≥ 1
(interleaved with further level openings, with matched levels), an
`Untrail` back to level 0 restores every variable's `current_bound` to its
level-zero value and the integer trail length to its initial value. -/
theorem c4_trail_round_trip (fuel : Nat) (s0 : ITrail) (ops : List TrailOp)
    (hinv : TInv s0) (hlev : s0.levels = [])
    (hok : (runOps fuel (PushLevel s0) ops).1 = true) :
    (Untrail (runOps fuel (PushLevel s0) ops).2 0).trail.length =
      s0.trail.length ∧
    (∀ v, v < s0.vars.length →
      LowerBound (Untrail (runOps fuel (PushLevel s0) ops).2 0) v =
        LowerBound s0 v) := by
  have hplev : (PushLevel s0).levels = [s0.trail.length] := by
    show s0.levels ++ [s0.trail.length] = _
    rw [hlev]
    rfl
  have hfacts := runOps_facts fuel s0.trail.length s0.vars ops (PushLevel s0)
    hinv (by rw [show (PushLevel s0).levels = _ from hplev]; simp)
    (le_refl _)
    (by rw [show (PushLevel s0).levels = _ from hplev]; rfl)
    (restoreDown_of_le s0.trail s0.trail.length s0.trail.length s0.vars
      (le_refl _))
  obtain ⟨hI, hne, hta, hg0, hrest⟩ := hfacts
  have hcond : ¬ ((runOps fuel (PushLevel s0) ops).2.levels.length ≤ 0) := by
    have := List.length_pos.mpr hne
    omega
  rw [Untrail_eq _ 0 hcond]
  constructor
  · show ((runOps fuel (PushLevel s0) ops).2.trail.take
      ((runOps fuel (PushLevel s0) ops).2.levels.getD 0 0)).length = _
    rw [hg0, List.length_take]
    omega
  · intro v hv
    show (((restoreDown (runOps fuel (PushLevel s0) ops).2.trail
        (runOps fuel (PushLevel s0) ops).2.trail.length
        ((runOps fuel (PushLevel s0) ops).2.levels.getD 0 0)
        (runOps fuel (PushLevel s0) ops).2.vars)).getD v default).bound =
      LowerBound s0 v
    rw [hg0, hrest]
    rfl

/-- Witness for C4: one variable pair `x ∈ [0, 5]`, one decision level, one
enqueue of `x ≥ 3`, then untrail to level 0. -/
theorem c4_trail_round_trip_witness :
    let s0 : ITrail :=
      { vars := [⟨0, 0⟩, ⟨-5, 1⟩], trail := [⟨0, 0, 0⟩, ⟨-5, 1, 0⟩],
        levels := [], domains := [[(0, 5)], [(-5, 0)]],
        lb := ⟨0, fun _ => 0, [], []⟩ }
    let ops : List TrailOp := [TrailOp.enq 0 3]
    (Untrail (runOps 3 (PushLevel s0) ops).2 0).trail.length =
      s0.trail.length ∧
    (∀ v, v < s0.vars.length →
      LowerBound (Untrail (runOps 3 (PushLevel s0) ops).2 0) v =
        LowerBound s0 v) := by
  refine c4_trail_round_trip 3 _ _ ?_ rfl ?_
  · show TInvVT [⟨0, 0⟩, ⟨-5, 1⟩] [⟨0, 0, 0⟩, ⟨-5, 1, 0⟩]
    refine ⟨?_, ?_⟩ <;> decide
  · simp +decide [runOps, Enqueue, EnqueueTail, PushLevel, advanceIdx, getVar,
      domOf, UpperBound, LowerBound, NegationOf, RevMapN.set, RevMapN.setLevel]

theorem inIL_of_getD (l : IL) (k : Nat) (x : Int) (hk : k < l.length)
    (h1 : (l.getD k (0, 0)).1 ≤ x) (h2 : x ≤ (l.getD k (0, 0)).2) :
    inIL l x = true := by
  unfold inIL
  rw [List.any_eq_true]
  refine ⟨l.getD k (0, 0), ?_, ?_⟩
  · rw [List.getD_eq_getElem l (0, 0) hk]
    exact List.getElem_mem hk
  · simp only [Bool.and_eq_true, decide_eq_true_eq]
    exact ⟨h1, h2⟩

/-- Claim C5: `Enqueue` with a bound not above the current lower bound
returns `true` and leaves the state unchanged; otherwise, against a
multi-interval domain, the bound is canonicalized by advancing the cached
interval index: if the advance runs off the domain the call reports a
conflict and changes nothing, and otherwise the recorded bound is the
original bound snapped up to the next feasible interval start — it lies
inside the domain (never in a hole), equals that interval's start exactly
when the original bound lay in a hole, and on success at a positive
decision level the single pushed trail entry carries that snapped bound. -/
theorem c5_enqueue_canonicalization (fuel : Nat) (s : ITrail) (v : Nat)
    (bound : Int)
    (hwf : ∀ k, k < (domOf s v).length →
      ((domOf s v).getD k (0, 0)).1 ≤ ((domOf s v).getD k (0, 0)).2)
    (hidx : s.lb.map v ≤ (domOf s v).length)
    (hlev : s.levels ≠ []) :
    (bound ≤ (getVar s v).bound → Enqueue (fuel + 1) s v bound = (true, s)) ∧
    ((getVar s v).bound < bound → 1 < (domOf s v).length →
      (advanceIdx (domOf s v) bound (s.lb.map v) = (domOf s v).length →
        Enqueue (fuel + 1) s v bound = (false, s)) ∧
      (advanceIdx (domOf s v) bound (s.lb.map v) < (domOf s v).length →
        inIL (domOf s v)
          (max bound
            ((domOf s v).getD
              (advanceIdx (domOf s v) bound (s.lb.map v)) (0, 0)).1) = true ∧
        (inIL (domOf s v) bound = false →
          bound < ((domOf s v).getD
              (advanceIdx (domOf s v) bound (s.lb.map v)) (0, 0)).1 ∧
          max bound
            ((domOf s v).getD
              (advanceIdx (domOf s v) bound (s.lb.map v)) (0, 0)).1 =
            ((domOf s v).getD
              (advanceIdx (domOf s v) bound (s.lb.map v)) (0, 0)).1) ∧
        ∀ r, Enqueue (fuel + 1) s v bound = (true, r) →
          r.trail = s.trail ++
            [⟨max bound
                ((domOf s v).getD
                  (advanceIdx (domOf s v) bound (s.lb.map v)) (0, 0)).1,
              v, (getVar s v).idx⟩])) := by
  constructor
  · intro hle
    rw [Enqueue_succ, if_pos hle]
  · intro hgt hmulti
    obtain ⟨hj1, hj2, hj3, hj4⟩ :=
      advanceIdx_spec (domOf s v) bound (domOf s v).length (s.lb.map v)
        (by omega) hidx
    constructor
    · intro hj
      rw [Enqueue_succ, if_neg (not_le.mpr hgt), if_pos hmulti, if_pos hj]
    · intro hjlt
      have hbe := hj4 hjlt
      have hse := hwf _ hjlt
      refine ⟨?_, ?_, ?_⟩
      · exact inIL_of_getD _ _ _ hjlt (le_max_right _ _) (max_le hbe hse)
      · intro hhole
        have hbs : bound <
            ((domOf s v).getD
              (advanceIdx (domOf s v) bound (s.lb.map v)) (0, 0)).1 := by
          by_contra hc
          rw [inIL_of_getD _ _ _ hjlt (le_of_not_lt hc) hbe] at hhole
          exact Bool.noConfusion hhole
        exact ⟨hbs, max_eq_right (le_of_lt hbs)⟩
      · intro r hr
        rw [Enqueue_succ, if_neg (not_le.mpr hgt), if_pos hmulti,
          if_neg (by omega)] at hr
        rw [EnqueueTail_eq] at hr
        by_cases hub : max bound
            ((domOf s v).getD
              (advanceIdx (domOf s v) bound (s.lb.map v)) (0, 0)).1 >
            UpperBound { s with lb := (RevMapN.set s.lb v
              (advanceIdx (domOf s v) bound (s.lb.map v))) } v
        · rw [if_pos hub] at hr
          injection hr with h1 h2
          exact Bool.noConfusion h1
        · rw [if_neg hub, if_neg (show ¬ ({ s with
              lb := (RevMapN.set s.lb v
                (advanceIdx (domOf s v) bound (s.lb.map v))) } :
              ITrail).levels = [] from hlev)] at hr
          injection hr with h1 h2
          rw [← h2]
          rfl

/-- Witness for C5: variable 0 with the two-interval domain
`[0,2] ∪ [5,7]`, current bound 0, enqueued bound 3 (a hole value): the
advanced index lands on `[5,7]` and the snapped bound is 5. -/
theorem c5_enqueue_canonicalization_witness :
    let s : ITrail :=
      { vars := [⟨0, 0⟩, ⟨-7, 1⟩], trail := [⟨0, 0, 0⟩, ⟨-7, 1, 0⟩],
        levels := [2], domains := [[(0, 2), (5, 7)], [(-7, -5), (-2, 0)]],
        lb := ⟨1, fun _ => 0, [], []⟩ }
    ((3 : Int) ≤ (getVar s 0).bound → Enqueue 1 s 0 3 = (true, s)) ∧
    ((getVar s 0).bound < 3 → 1 < (domOf s 0).length →
      (advanceIdx (domOf s 0) 3 (s.lb.map 0) = (domOf s 0).length →
        Enqueue 1 s 0 3 = (false, s)) ∧
      (advanceIdx (domOf s 0) 3 (s.lb.map 0) < (domOf s 0).length →
        inIL (domOf s 0)
          (max 3
            ((domOf s 0).getD
              (advanceIdx (domOf s 0) 3 (s.lb.map 0)) (0, 0)).1) = true ∧
        (inIL (domOf s 0) 3 = false →
          (3 : Int) < ((domOf s 0).getD
              (advanceIdx (domOf s 0) 3 (s.lb.map 0)) (0, 0)).1 ∧
          max 3
            ((domOf s 0).getD
              (advanceIdx (domOf s 0) 3 (s.lb.map 0)) (0, 0)).1 =
            ((domOf s 0).getD
              (advanceIdx (domOf s 0) 3 (s.lb.map 0)) (0, 0)).1) ∧
        ∀ r, Enqueue 1 s 0 3 = (true, r) →
          r.trail = s.trail ++
            [⟨max 3
                ((domOf s 0).getD
                  (advanceIdx (domOf s 0) 3 (s.lb.map 0)) (0, 0)).1,
              0, (getVar s 0).idx⟩])) := by
  intro s
  refine c5_enqueue_canonicalization 0 s 0 3 ?_ ?_ ?_
  · show ∀ k, k < ([((0 : Int), (2 : Int)), (5, 7)] : IL).length →
      (([((0 : Int), (2 : Int)), (5, 7)] : IL).getD k (0, 0)).1 ≤
      (([((0 : Int), (2 : Int)), (5, 7)] : IL).getD k (0, 0)).2
    decide
  · show (0 : Nat) ≤ 2
    decide
  · show ([2] : List Nat) ≠ []
    decide

/-! ### The negation-pairing invariant (claim C9) -/

theorem negIL_negIL (l : IL) : negIL (negIL l) = l := by
  unfold negIL
  rw [List.map_reverse, List.reverse_reverse, List.map_map]
  have hid : ((fun p : Int × Int => (-p.2, -p.1)) ∘
      fun p : Int × Int => (-p.2, -p.1)) = id := by
    funext p
    simp
  rw [hid, List.map_id]

/-- The pairing invariant maintained by `IntegerTrail`: variables come in
even/odd pairs and each odd variable's domain is the negation of its even
partner's domain. -/
def NegPair (s : ITrail) : Prop :=
  s.domains.length = s.vars.length ∧ s.vars.length % 2 = 0 ∧
  ∀ w, w < s.vars.length → w % 2 = 0 →
    s.domains.getD (w + 1) [] = negIL (s.domains.getD w [])

theorem NegPair_domOf (s : ITrail) (hs : NegPair s) (w : Nat)
    (hw : w < s.vars.length) :
    domOf s (NegationOf w) = negIL (domOf s w) := by
  obtain ⟨h1, h2, h3⟩ := hs
  unfold domOf NegationOf
  by_cases hp : w % 2 = 0
  · rw [if_pos hp]
    exact h3 w hw hp
  · rw [if_neg hp]
    have hstep := h3 (w - 1) (by omega) (by omega)
    rw [show w - 1 + 1 = w from by omega] at hstep
    rw [hstep, negIL_negIL]

theorem negpair_of_eq (s t : ITrail) (hd : t.domains = s.domains)
    (hv : t.vars.length = s.vars.length) (hs : NegPair s) : NegPair t := by
  obtain ⟨h1, h2, h3⟩ := hs
  refine ⟨by rw [hd, hv]; exact h1, by rw [hv]; exact h2, ?_⟩
  intro w hw hwe
  rw [hd]
  exact h3 w (by rw [hv] at hw; exact hw) hwe

theorem negpair_set_pair (s : ITrail) (v : Nat) (d2 : IL) (hs : NegPair s) :
    NegPair { s with
      domains := (s.domains.set v d2).set (NegationOf v) (negIL d2) } := by
  obtain ⟨h1, h2, h3⟩ := hs
  refine ⟨by simp [h1], h2, ?_⟩
  intro w hw hwe
  have hw' : w < s.vars.length := hw
  show ((s.domains.set v d2).set (NegationOf v) (negIL d2)).getD (w + 1) [] =
    negIL (((s.domains.set v d2).set (NegationOf v) (negIL d2)).getD w [])
  by_cases hp : v % 2 = 0
  · have hneg : NegationOf v = v + 1 := by
      unfold NegationOf
      rw [if_pos hp]
    rw [hneg]
    by_cases hwv : w = v
    · rw [show v = w from hwv.symm]
      have hr : w < s.domains.length := by omega
      have hr1 : w + 1 < s.domains.length := by omega
      rw [getD_set_self _ _ _ _ (by simp only [List.length_set]; exact hr1),
        getD_set_ne _ _ _ (by omega : w + 1 ≠ w),
        getD_set_self _ _ _ _ hr]
    · rw [getD_set_ne _ _ _ (by omega : v + 1 ≠ w + 1),
        getD_set_ne _ _ _ (by omega : v ≠ w + 1),
        getD_set_ne _ _ _ (by omega : v + 1 ≠ w),
        getD_set_ne _ _ _ (fun h => hwv h.symm)]
      exact h3 w hw' hwe
  · have hneg : NegationOf v = v - 1 := by
      unfold NegationOf
      rw [if_neg hp]
    rw [hneg]
    by_cases hwv : w = v - 1
    · rw [show v - 1 = w from hwv.symm, show v = w + 1 from by omega]
      have hr : w < s.domains.length := by omega
      have hr1 : w + 1 < s.domains.length := by omega
      rw [getD_set_ne _ _ _ (by omega : w ≠ w + 1),
        getD_set_self _ _ _ _ hr1,
        getD_set_self _ _ _ _ (by simp only [List.length_set]; exact hr),
        negIL_negIL]
    · rw [getD_set_ne _ _ _ (by omega : v - 1 ≠ w + 1),
        getD_set_ne _ _ _ (by omega : v ≠ w + 1),
        getD_set_ne _ _ _ (by omega : v - 1 ≠ w),
        getD_set_ne _ _ _ (by omega : v ≠ w)]
      exact h3 w hw' hwe

theorem UpdateInitialDomain_zero (s : ITrail) (v : Nat) (d : IL) :
    UpdateInitialDomain 0 s v d = (true, s) := by
  simp [UpdateInitialDomain]

theorem UpdateInitialDomain_succ (fuel : Nat) (s : ITrail) (v : Nat)
    (d : IL) :
    UpdateInitialDomain (fuel + 1) s v d =
      if interIL d (domOf s v) = domOf s v then (true, s)
      else if interIL d (domOf s v) = [] then (false, s)
      else
        ((Enqueue fuel
            (if 1 < (interIL d (domOf s v)).length then
              { s with
                domains := (s.domains.set v (interIL d (domOf s v))).set
                  (NegationOf v) (negIL (interIL d (domOf s v)))
                lb := (RevMapN.set s.lb v 0).set (NegationOf v) 0 }
            else
              { s with
                domains := (s.domains.set v (interIL d (domOf s v))).set
                  (NegationOf v) (negIL (interIL d (domOf s v))) })
            v (ilMin (interIL d (domOf s v)))).1 &&
          (Enqueue fuel
            (Enqueue fuel
              (if 1 < (interIL d (domOf s v)).length then
                { s with
                  domains := (s.domains.set v (interIL d (domOf s v))).set
                    (NegationOf v) (negIL (interIL d (domOf s v)))
                  lb := (RevMapN.set s.lb v 0).set (NegationOf v) 0 }
              else
                { s with
                  domains := (s.domains.set v (interIL d (domOf s v))).set
                    (NegationOf v) (negIL (interIL d (domOf s v))) })
              v (ilMin (interIL d (domOf s v)))).2
            (NegationOf v) (-(ilMax (interIL d (domOf s v))))).1,
          (Enqueue fuel
            (Enqueue fuel
              (if 1 < (interIL d (domOf s v)).length then
                { s with
                  domains := (s.domains.set v (interIL d (domOf s v))).set
                    (NegationOf v) (negIL (interIL d (domOf s v)))
                  lb := (RevMapN.set s.lb v 0).set (NegationOf v) 0 }
              else
                { s with
                  domains := (s.domains.set v (interIL d (domOf s v))).set
                    (NegationOf v) (negIL (interIL d (domOf s v))) })
              v (ilMin (interIL d (domOf s v)))).2
            (NegationOf v) (-(ilMax (interIL d (domOf s v))))).2) := by
  rw [UpdateInitialDomain]

theorem enqueueTail_negpair_of (fuel : Nat)
    (hUID : ∀ s v d, NegPair s →
      NegPair (UpdateInitialDomain fuel s v d).2) :
    ∀ s v bound, NegPair s → NegPair (EnqueueTail fuel s v bound).2 := by
  intro s v bound hs
  rw [EnqueueTail_eq]
  by_cases h1 : bound > UpperBound s v
  · rw [if_pos h1]
    exact hs
  · rw [if_neg h1]
    by_cases h2 : s.levels = []
    · rw [if_pos h2]
      refine hUID _ _ _ ?_
      exact negpair_of_eq s _ rfl (by simp) hs
    · rw [if_neg h2]
      exact negpair_of_eq s _ rfl (by simp) hs

theorem enqueue_negpair_of (fuel : Nat)
    (hET : ∀ s v bound, NegPair s → NegPair (EnqueueTail fuel s v bound).2) :
    ∀ s v bound, NegPair s → NegPair (Enqueue (fuel + 1) s v bound).2 := by
  intro s v bound hs
  rw [Enqueue_succ]
  by_cases h1 : bound ≤ (getVar s v).bound
  · rw [if_pos h1]
    exact hs
  · rw [if_neg h1]
    by_cases h2 : 1 < (domOf s v).length
    · rw [if_pos h2]
      by_cases h3 : advanceIdx (domOf s v) bound (s.lb.map v) =
          (domOf s v).length
      · rw [if_pos h3]
        exact hs
      · rw [if_neg h3]
        exact hET _ _ _ (negpair_of_eq s _ rfl rfl hs)
    · rw [if_neg h2]
      exact hET _ _ _ hs

theorem uid_negpair_of (fuel : Nat)
    (hE : ∀ s v bound, NegPair s → NegPair (Enqueue fuel s v bound).2) :
    ∀ s v d, NegPair s → NegPair (UpdateInitialDomain (fuel + 1) s v d).2 := by
  intro s v d hs
  rw [UpdateInitialDomain_succ]
  by_cases h1 : interIL d (domOf s v) = domOf s v
  · rw [if_pos h1]
    exact hs
  · rw [if_neg h1]
    by_cases h2 : interIL d (domOf s v) = []
    · rw [if_pos h2]
      exact hs
    · rw [if_neg h2]
      refine hE _ _ _ (hE _ _ _ ?_)
      by_cases h3 : 1 < (interIL d (domOf s v)).length
      · rw [if_pos h3]
        exact negpair_of_eq _ _ rfl rfl (negpair_set_pair s v _ hs)
      · rw [if_neg h3]
        exact negpair_set_pair s v _ hs

theorem negpair_trail_ops : ∀ fuel,
    (∀ s v bound, NegPair s → NegPair (Enqueue fuel s v bound).2) ∧
    (∀ s v bound, NegPair s → NegPair (EnqueueTail fuel s v bound).2) ∧
    (∀ s v d, NegPair s → NegPair (UpdateInitialDomain fuel s v d).2) := by
  intro fuel
  induction fuel with
  | zero =>
    have hUID0 : ∀ s v d, NegPair s →
        NegPair (UpdateInitialDomain 0 s v d).2 := by
      intro s v d hs
      rw [UpdateInitialDomain_zero]
      exact hs
    refine ⟨?_, enqueueTail_negpair_of 0 hUID0, hUID0⟩
    intro s v bound hs
    rw [Enqueue_zero]
    exact hs
  | succ n ih =>
    have hUID := uid_negpair_of n ih.1
    exact ⟨enqueue_negpair_of n ih.2.1, enqueueTail_negpair_of (n + 1) hUID,
      hUID⟩

theorem restoreDown_length (full : List TrailEntry) :
    ∀ i target vars,
      (restoreDown full i target vars).length = vars.length := by
  intro i
  induction i with
  | zero => intros; rfl
  | succ n ih =>
    intro target vars
    rw [restoreDown_succ]
    by_cases h : n + 1 ≤ target
    · rw [if_pos h]
    · rw [if_neg h, ih]
      simp

theorem Untrail_negpair (s : ITrail) (lvl : Nat) (hs : NegPair s) :
    NegPair (Untrail s lvl) := by
  by_cases hc : s.levels.length ≤ lvl
  · have heq : Untrail s lvl = { s with lb := RevMapN.setLevel s.lb lvl } := by
      unfold Untrail
      rw [if_pos hc]
    rw [heq]
    exact negpair_of_eq s _ rfl rfl hs
  · rw [Untrail_eq s lvl hc]
    refine negpair_of_eq s _ rfl ?_ hs
    show (restoreDown s.trail s.trail.length (s.levels.getD lvl 0)
      s.vars).length = s.vars.length
    exact restoreDown_length s.trail _ _ _

theorem AddIntegerVariable_negpair (s : ITrail) (lb ub : Int)
    (hs : NegPair s) : NegPair (AddIntegerVariable s lb ub).2 := by
  obtain ⟨h1, h2, h3⟩ := hs
  refine ⟨by simp [AddIntegerVariable, h1], by simp [AddIntegerVariable]; omega, ?_⟩
  intro w hw hwe
  have hwlen : w < s.vars.length + 1 + 1 := by
    simpa [AddIntegerVariable] using hw
  show ((s.domains ++ [[(lb, ub)]]) ++ [[(-ub, -lb)]]).getD (w + 1) [] =
    negIL (((s.domains ++ [[(lb, ub)]]) ++ [[(-ub, -lb)]]).getD w [])
  by_cases hlt : w < s.vars.length
  · have hd1 : w + 1 < s.domains.length := by omega
    rw [getD_append_left _ _ (w + 1) _ (by simp; omega),
      getD_append_left _ _ (w + 1) _ hd1,
      getD_append_left _ _ w _ (by simp; omega),
      getD_append_left _ _ w _ (by omega)]
    exact h3 w (by omega) hwe
  · have hw0 : w = s.vars.length := by omega
    subst hw0
    rw [← h1]
    have hlen1 : (s.domains ++ [[(lb, ub)]]).length =
        s.domains.length + 1 := by simp
    rw [show s.domains.length + 1 = (s.domains ++ [[(lb, ub)]]).length from
        hlen1.symm,
      getD_append_self,
      getD_append_left _ _ s.domains.length _ (by simp),
      getD_append_self]
    rfl

/-- Claim C9: `AddIntegerVariable` returns the next (even) index and the
variable's negation is the index right after it; the pairing invariant —
each odd variable's domain is the negation of its even partner's, so
`domain(NegationOf v)` is the negation of `domain(v)` for every in-range
variable — holds after creation and is preserved by `Enqueue`,
`UpdateInitialDomain` and `Untrail`; and the accessors satisfy
`LowerBound(NegationOf v) = -UpperBound(v)` in every state. -/
theorem c9_negation_pairing (s : ITrail) (lb ub : Int) (fuel : Nat)
    (v w : Nat) (bound : Int) (d : IL) (lvl : Nat) (hs : NegPair s) :
    (∀ t : ITrail, ∀ u : Nat,
      LowerBound t (NegationOf u) = -(UpperBound t u)) ∧
    (AddIntegerVariable s lb ub).1 = s.vars.length ∧
    NegationOf (AddIntegerVariable s lb ub).1 =
      (AddIntegerVariable s lb ub).1 + 1 ∧
    NegPair (AddIntegerVariable s lb ub).2 ∧
    (w < s.vars.length → domOf s (NegationOf w) = negIL (domOf s w)) ∧
    NegPair (Enqueue fuel s v bound).2 ∧
    NegPair (UpdateInitialDomain fuel s v d).2 ∧
    NegPair (Untrail s lvl) := by
  obtain ⟨h1, h2, h3⟩ := hs
  refine ⟨?_, rfl, ?_, AddIntegerVariable_negpair s lb ub ⟨h1, h2, h3⟩,
    fun hw => NegPair_domOf s ⟨h1, h2, h3⟩ w hw,
    (negpair_trail_ops fuel).1 s v bound ⟨h1, h2, h3⟩,
    (negpair_trail_ops fuel).2.2 s v d ⟨h1, h2, h3⟩,
    Untrail_negpair s lvl ⟨h1, h2, h3⟩⟩
  · intro t u
    rw [UpperBound, neg_neg]
  · show NegationOf s.vars.length = s.vars.length + 1
    unfold NegationOf
    rw [if_pos h2]

/-- Witness for C9: starting from the empty trail, create `x ∈ [0, 5]`
(indices 0 and 1), and check the pairing invariant across an enqueue, a
domain update and an untrail. -/
theorem c9_negation_pairing_witness :
    let s : ITrail :=
      { vars := [], trail := [], levels := [], domains := [],
        lb := ⟨0, fun _ => 0, [], []⟩ }
    (∀ t : ITrail, ∀ u : Nat,
      LowerBound t (NegationOf u) = -(UpperBound t u)) ∧
    (AddIntegerVariable s 0 5).1 = s.vars.length ∧
    NegationOf (AddIntegerVariable s 0 5).1 =
      (AddIntegerVariable s 0 5).1 + 1 ∧
    NegPair (AddIntegerVariable s 0 5).2 ∧
    (0 < s.vars.length → domOf s (NegationOf 0) = negIL (domOf s 0)) ∧
    NegPair (Enqueue 1 s 0 1).2 ∧
    NegPair (UpdateInitialDomain 1 s 0 [(0, 1)]).2 ∧
    NegPair (Untrail s 0) := by
  intro s
  refine c9_negation_pairing s 0 5 1 0 0 1 [(0, 1)] 0 ⟨rfl, rfl, ?_⟩
  intro w hw hwe
  have h0 : s.vars.length = 0 := rfl
  exact absurd hw (by omega)

/-! ### `GenericLiteralWatcher::Propagate` (claim C8) -/

/-- The watcher bookkeeping of `GenericLiteralWatcher`: per-priority
queues, the `in_queue_` flags, the per-propagator watch indices, and the
rest of the solver state (trails, reversible classes) abstracted as `ext`. -/
structure GLW (σ : Type) where
  queues : List (List Nat)
  inQ : List Bool
  watchIdx : List (List Nat)
  ext : σ

/-- The abstract propagator interface the dispatcher drives: a registered
propagator run (`Propagate` / `IncrementalPropagate`), the two timestamps
(`IntegerTrail::num_enqueues` and `Trail::Index`), `UpdateCallingNeeds`,
and the per-propagator idempotence bit. -/
structure GLWParams (σ : Type) where
  runProp : Nat → List Nat → σ → Bool × σ
  numEnq : σ → Nat
  boolIdx : σ → Nat
  updateCN : GLW σ → GLW σ
  idem : Nat → Bool

/-- The outcome of one propagator run inside the dispatcher loop. -/
structure RunRes (σ : Type) where
  ok : Bool
  pushedInt : Bool
  pushedBool : Bool
  state : GLW σ

/-- One run of propagator `id` (source lines 1346-1377): record the two
timestamps, run the propagator on its watch indices, on failure clear the
watch indices and the queue flag and fail; on success clear them around
`UpdateCallingNeeds` according to the idempotence bit, then compare the
timestamps read after `UpdateCallingNeeds` against the recorded ones. -/
def runOne {σ : Type} (P : GLWParams σ) (g : GLW σ) (id : Nat) : RunRes σ :=
  let oldInt := P.numEnq g.ext
  let oldBool := P.boolIdx g.ext
  let pr := P.runProp id (g.watchIdx.getD id []) g.ext
  if pr.1 = false then
    { ok := false
      pushedInt := false
      pushedBool := false
      state := { g with
        ext := pr.2
        watchIdx := g.watchIdx.set id []
        inQ := g.inQ.set id false } }
  else
    let g2 :=
      if P.idem id then
        let gcn := P.updateCN { g with ext := pr.2 }
        { gcn with
          watchIdx := gcn.watchIdx.set id []
          inQ := gcn.inQ.set id false }
      else
        P.updateCN { g with
          ext := pr.2
          watchIdx := g.watchIdx.set id []
          inQ := g.inQ.set id false }
    { ok := true
      pushedInt := decide (oldInt < P.numEnq g2.ext)
      pushedBool := decide (oldBool < P.boolIdx g2.ext)
      state := g2 }

/-- How a single-priority queue drain ends: a failed propagator, an early
`return true` after a Boolean push, or an emptied queue with the
restart-at-priority-0 flag. -/
inductive GLWOut (σ : Type) where
  | conflict (g : GLW σ)
  | boolStop (g : GLW σ)
  | drained (restart : Bool) (g : GLW σ)

/-- The inner `while (!queue.empty())` loop of `Propagate` at one priority
(source lines 1324-1401), with `restart` accumulating whether any run so
far pushed an integer bound (the `priority = -1` assignments). -/
def drainQueue {σ : Type} (P : GLWParams σ) :
    Nat → GLW σ → Nat → Bool → GLWOut σ
  | 0, g, _, restart => GLWOut.drained restart g
  | fuel + 1, g, p, restart =>
    match g.queues.getD p [] with
    | [] => GLWOut.drained restart g
    | id :: rest =>
      let r := runOne P { g with queues := g.queues.set p rest } id
      if r.ok = false then GLWOut.conflict r.state
      else if r.pushedBool = true then GLWOut.boolStop r.state
      else drainQueue P fuel r.state p (restart || r.pushedInt)

/-- The outer `for (priority ...)` loop of `Propagate`: drain the queue at
the current priority, fail on a conflict, return `true` on a Boolean push,
and otherwise continue at priority 0 if the drain set the restart flag and
at the next priority if not. -/
def GLWPropagate {σ : Type} (P : GLWParams σ) :
    Nat → GLW σ → Nat → Bool × GLW σ
  | 0, g, _ => (true, g)
  | fuel + 1, g, p =>
    if p < g.queues.length then
      match drainQueue P (fuel + 1) g p false with
      | GLWOut.conflict g2 => (false, g2)
      | GLWOut.boolStop g2 => (true, g2)
      | GLWOut.drained restart g2 =>
        GLWPropagate P fuel g2 (if restart then 0 else p + 1)
    else (true, g)

theorem drainQueue_nil {σ : Type} (P : GLWParams σ) (fuel : Nat)
    (g : GLW σ) (p : Nat) (restart : Bool)
    (hq : g.queues.getD p [] = []) :
    drainQueue P (fuel + 1) g p restart = GLWOut.drained restart g := by
  rw [drainQueue, hq]

theorem drainQueue_cons {σ : Type} (P : GLWParams σ) (fuel : Nat)
    (g : GLW σ) (p : Nat) (restart : Bool) (id : Nat) (rest : List Nat)
    (hq : g.queues.getD p [] = id :: rest) :
    drainQueue P (fuel + 1) g p restart =
      if (runOne P { g with queues := g.queues.set p rest } id).ok
          = false then
        GLWOut.conflict
          (runOne P { g with queues := g.queues.set p rest } id).state
      else if (runOne P { g with queues := g.queues.set p rest } id).pushedBool
          = true then
        GLWOut.boolStop
          (runOne P { g with queues := g.queues.set p rest } id).state
      else
        drainQueue P fuel
          (runOne P { g with queues := g.queues.set p rest } id).state p
          (restart ||
            (runOne P { g with queues := g.queues.set p rest } id).pushedInt)
    := by
  rw [drainQueue, hq]

theorem GLWPropagate_succ {σ : Type} (P : GLWParams σ) (fuel : Nat)
    (g : GLW σ) (p : Nat) :
    GLWPropagate P (fuel + 1) g p =
      if p < g.queues.length then
        match drainQueue P (fuel + 1) g p false with
        | GLWOut.conflict g2 => (false, g2)
        | GLWOut.boolStop g2 => (true, g2)
        | GLWOut.drained restart g2 =>
          GLWPropagate P fuel g2 (if restart then 0 else p + 1)
      else (true, g) := by
  rw [GLWPropagate]

theorem drainQueue_restart_persists {σ : Type} (P : GLWParams σ) (p : Nat) :
    ∀ fuel (g : GLW σ) res g',
      drainQueue P fuel g p true = GLWOut.drained res g' → res = true := by
  intro fuel
  induction fuel with
  | zero =>
    intro g res g' h
    injection h with h1 h2
    exact h1.symm
  | succ n ih =>
    intro g res g' h
    cases hq : g.queues.getD p [] with
    | nil =>
      rw [drainQueue_nil P n g p true hq] at h
      injection h with h1 h2
      exact h1.symm
    | cons id rest =>
      rw [drainQueue_cons P n g p true id rest hq] at h
      by_cases hok : (runOne P { g with queues := g.queues.set p rest }
          id).ok = false
      · rw [if_pos hok] at h
        exact GLWOut.noConfusion h
      · rw [if_neg hok] at h
        by_cases hb : (runOne P { g with queues := g.queues.set p rest }
            id).pushedBool = true
        · rw [if_pos hb] at h
          exact GLWOut.noConfusion h
        · rw [if_neg hb, Bool.true_or] at h
          exact ih _ _ _ h

/-- Claim C8: in the dispatcher loop, for every propagator at every
priority, a failed run aborts with `false`; a successful run that pushed a
Boolean literal makes `Propagate` return `true` immediately (handing
control to the SAT propagators); a successful run that pushed an integer
bound sets the restart flag carried by the queue drain; the flag, once
set, survives to the end of the drain; and a drained queue with the flag
set makes the outer loop resume at priority 0 (and at the next priority
otherwise). -/
theorem c8_glw_dispatch {σ : Type} (P : GLWParams σ) (fuel : Nat)
    (g : GLW σ) (p id : Nat) (rest : List Nat) (restart : Bool)
    (hp : p < g.queues.length)
    (hq : g.queues.getD p [] = id :: rest) :
    ((runOne P { g with queues := g.queues.set p rest } id).ok = false →
      drainQueue P (fuel + 1) g p restart =
        GLWOut.conflict
          (runOne P { g with queues := g.queues.set p rest } id).state ∧
      GLWPropagate P (fuel + 1) g p =
        (false,
          (runOne P { g with queues := g.queues.set p rest } id).state)) ∧
    ((runOne P { g with queues := g.queues.set p rest } id).ok = true →
      (runOne P { g with queues := g.queues.set p rest } id).pushedBool
        = true →
      drainQueue P (fuel + 1) g p restart =
        GLWOut.boolStop
          (runOne P { g with queues := g.queues.set p rest } id).state ∧
      GLWPropagate P (fuel + 1) g p =
        (true,
          (runOne P { g with queues := g.queues.set p rest } id).state)) ∧
    ((runOne P { g with queues := g.queues.set p rest } id).ok = true →
      (runOne P { g with queues := g.queues.set p rest } id).pushedBool
        = false →
      drainQueue P (fuel + 1) g p restart =
        drainQueue P fuel
          (runOne P { g with queues := g.queues.set p rest } id).state p
          (restart ||
            (runOne P { g with
              queues := g.queues.set p rest } id).pushedInt)) ∧
    (∀ res g', drainQueue P fuel g p true = GLWOut.drained res g' →
      res = true) ∧
    (∀ res g', drainQueue P (fuel + 1) g p false = GLWOut.drained res g' →
      GLWPropagate P (fuel + 1) g p =
        GLWPropagate P fuel g' (if res then 0 else p + 1)) := by
  refine ⟨?_, ?_, ?_, ?_, ?_⟩
  · intro h
    constructor
    · rw [drainQueue_cons P fuel g p restart id rest hq, if_pos h]
    · rw [GLWPropagate_succ, if_pos hp,
        drainQueue_cons P fuel g p false id rest hq, if_pos h]
  · intro hok hb
    have hok' : ¬ ((runOne P { g with queues := g.queues.set p rest }
        id).ok = false) := by simp [hok]
    constructor
    · rw [drainQueue_cons P fuel g p restart id rest hq, if_neg hok',
        if_pos hb]
    · rw [GLWPropagate_succ, if_pos hp,
        drainQueue_cons P fuel g p false id rest hq, if_neg hok',
        if_pos hb]
  · intro hok hb
    have hok' : ¬ ((runOne P { g with queues := g.queues.set p rest }
        id).ok = false) := by simp [hok]
    have hb' : ¬ ((runOne P { g with queues := g.queues.set p rest }
        id).pushedBool = true) := by simp [hb]
    rw [drainQueue_cons P fuel g p restart id rest hq, if_neg hok',
      if_neg hb']
  · exact fun res g' h => drainQueue_restart_persists P p fuel g res g' h
  · intro res g' hd
    rw [GLWPropagate_succ, if_pos hp, hd]

/-- Witness for C8: one propagator at priority 0 over a two-counter
solver state (integer enqueues, Boolean trail index); the run pushes one
integer bound and no literal. -/
theorem c8_glw_dispatch_witness :
    let P : GLWParams (Nat × Nat) :=
      { runProp := fun _ _ st => (true, (st.1 + 1, st.2))
        numEnq := fun st => st.1
        boolIdx := fun st => st.2
        updateCN := fun g => g
        idem := fun _ => false }
    let g : GLW (Nat × Nat) :=
      { queues := [[0]], inQ := [true], watchIdx := [[]], ext := (0, 0) }
    ((runOne P { g with queues := g.queues.set 0 [] } 0).ok = false →
      drainQueue P 2 g 0 false =
        GLWOut.conflict
          (runOne P { g with queues := g.queues.set 0 [] } 0).state ∧
      GLWPropagate P 2 g 0 =
        (false, (runOne P { g with queues := g.queues.set 0 [] } 0).state)) ∧
    ((runOne P { g with queues := g.queues.set 0 [] } 0).ok = true →
      (runOne P { g with queues := g.queues.set 0 [] } 0).pushedBool
        = true →
      drainQueue P 2 g 0 false =
        GLWOut.boolStop
          (runOne P { g with queues := g.queues.set 0 [] } 0).state ∧
      GLWPropagate P 2 g 0 =
        (true, (runOne P { g with queues := g.queues.set 0 [] } 0).state)) ∧
    ((runOne P { g with queues := g.queues.set 0 [] } 0).ok = true →
      (runOne P { g with queues := g.queues.set 0 [] } 0).pushedBool
        = false →
      drainQueue P 2 g 0 false =
        drainQueue P 1
          (runOne P { g with queues := g.queues.set 0 [] } 0).state 0
          (false ||
            (runOne P { g with queues := g.queues.set 0 [] } 0).pushedInt)) ∧
    (∀ res g', drainQueue P 1 g 0 true = GLWOut.drained res g' →
      res = true) ∧
    (∀ res g', drainQueue P 2 g 0 false = GLWOut.drained res g' →
      GLWPropagate P 2 g 0 =
        GLWPropagate P 1 g' (if res then 0 else 0 + 1)) := by
  intro P g
  exact c8_glw_dispatch P 1 g 0 0 [] false (by decide : (0 : Nat) < 1) rfl
